import Mathlib

/-!
Shallow embedding of the snmp_collector repository (Go) and proofs about it.

Each section embeds one source file of the repository:
* `producer/metrics/poll.go`   — counter delta state and the Build assembly.
* `producer/metrics/enrich.go` — the enum registry.
* `pkg/snmpcollector/poller/session.go` — the connection pool (sequential model).
* `snmp/decoder/varbind.go`    — OID→attribute matching.
* `snmp/trap/handler.go`       — trap parsing (v1 OID synthesis, v2c/v3 header scan).
* `pkg/snmpcollector/scheduler/resolve.go` — config-hierarchy job resolution.

Conventions: Go `uint64` is `Nat` with explicit `% 2^64` where overflow can
occur; `time.Time` and `time.Duration` are `Int` nanoseconds; Go maps are
association lists with unique keys (first-match lookup, in-place overwrite);
Go `interface{}` metric values are the tagged variant `GoValue`
(floating-point values never occur in the claims and are omitted).
-/

namespace SnmpSpec

/-- GoValue models the dynamic (interface-typed) values the decoder produces:
int64, uint64, string, []byte, bool.  A uint64 payload is a `Nat` below 2^64. -/
inductive GoValue where
  | i64 (v : Int)
  | u64 (v : Nat)
  | str (s : String)
  | bytes (bs : List Char)
  | boolean (b : Bool)
deriving DecidableEq, Repr

/-- Association-list lookup: first entry with the given key (Go map read). -/
def alGet {α β : Type} [DecidableEq α] : List (α × β) → α → Option β
  | [], _ => none
  | p :: rest, a => if p.1 = a then some p.2 else alGet rest a

/-- Association-list write: overwrite in place, append when absent (Go map write). -/
def alSet {α β : Type} [DecidableEq α] : List (α × β) → α → β → List (α × β)
  | [], a, b => [(a, b)]
  | p :: rest, a, b =>
      if p.1 = a then (a, b) :: rest else p :: alSet rest a b

/-- Append one element to the list stored under a key, creating the key when
absent (Go `m[k] = append(m[k], v)`). -/
def alAppend {α β : Type} [DecidableEq α] : List (α × List β) → α → β → List (α × List β)
  | [], a, b => [(a, [b])]
  | p :: rest, a, b =>
      if p.1 = a then (p.1, p.2 ++ [b]) :: rest else p :: alAppend rest a b

/-- The modulus of Go's uint64 arithmetic. -/
def u64Mod : Nat := 2 ^ 64

/-- Go uint64 addition (wraps modulo 2^64). -/
def u64add (a b : Nat) : Nat := (a + b) % u64Mod

/-- Go uint64 subtraction (wraps modulo 2^64). -/
def u64sub (a b : Nat) : Nat := (a % u64Mod + u64Mod - b % u64Mod) % u64Mod

/-!  producer/metrics/poll.go — counter delta state  -/

/-- CounterKey identifies one counter series: `(device hostname, attribute
name, table instance)` (source: `CounterKey` in poll.go). -/
structure CounterKey where
  device : String
  attr : String
  inst : String
deriving DecidableEq, Repr

/-- counterEntry holds the previously observed value and observation time
(source: `counterEntry`). -/
structure counterEntry where
  value : Nat
  seenAt : Int
deriving DecidableEq, Repr

/-- The counter state's map contents (`CounterState.entries`); the mutex is
irrelevant in the sequential model. -/
abbrev CounterEntries := List (CounterKey × counterEntry)

/-- DeltaResult as returned by `CounterState.Delta`; on the invalid paths the
Go zero value `{0, 0, false}` is returned. -/
structure DeltaResult where
  delta : Nat
  elapsed : Int
  valid : Bool
deriving DecidableEq, Repr

/-- CounterState.Delta: record the current value; when a previous sample
exists and time advanced, return the delta (with single-wrap correction)
and the elapsed time.  Returns the updated entries plus the DeltaResult. -/
def CounterState.Delta (entries : CounterEntries) (key : CounterKey)
    (current : Nat) (now : Int) (wrap : Nat) : CounterEntries × DeltaResult :=
  let entries' := alSet entries key ⟨current, now⟩
  match alGet entries key with
  | none => (entries', ⟨0, 0, false⟩)
  | some prev =>
      let elapsed := now - prev.seenAt
      if elapsed ≤ 0 then (entries', ⟨0, 0, false⟩)
      else
        let delta :=
          if prev.value ≤ current then current - prev.value
          else u64add (u64add (u64sub wrap prev.value) current) 1
        (entries', ⟨delta, elapsed, true⟩)

/-- CounterState.Remove: delete all stored state for the key. -/
def CounterState.Remove (entries : CounterEntries) (key : CounterKey) : CounterEntries :=
  entries.filter (fun p => decide (¬ p.1 = key))

/-- CounterState.Purge: drop every entry whose `seenAt` is before
`now - maxAge`; returns the kept entries and the count removed. -/
def CounterState.Purge (entries : CounterEntries) (maxAge now : Int) :
    CounterEntries × Nat :=
  let cutoff := now - maxAge
  let kept := entries.filter (fun p => decide (¬ p.2.seenAt < cutoff))
  (kept, entries.length - kept.length)

/-- IsCounterSyntax: true for the two monotonic counter syntaxes. -/
def IsCounterSyntax (syn : String) : Bool :=
  syn = "Counter32" || syn = "Counter64"

/-- WrapForSyntax: the rollover boundary — uint32 max for Counter32,
uint64 max otherwise. -/
def WrapForSyntax (syn : String) : Nat :=
  if syn = "Counter32" then 4294967295 else 18446744073709551615

/-- syntaxPriority as written in poll.go: Counter64 20, Counter32 10,
BandwidthGBits 14, BandwidthMBits 13, BandwidthKBits 12,
BandwidthBits and Gauge32 11, anything else 0. -/
def syntaxPriority (syn : String) : Int :=
  if syn = "Counter64" then 20
  else if syn = "Counter32" then 10
  else if syn = "BandwidthGBits" then 14
  else if syn = "BandwidthMBits" then 13
  else if syn = "BandwidthKBits" then 12
  else if syn = "BandwidthBits" || syn = "Gauge32" then 11
  else 0

/-- specClaimSyntaxPriority follows the WORDS of the specification's override
table (spec §4.5): Counter64 = 20; BandwidthGBits = 15; BandwidthMBits = 14;
BandwidthKBits = 13; BandwidthBits and Gauge32 = 11–12 (rendered here as 11);
Counter32 = 10; anything else = 0.  It exists only to be compared with the
source's `syntaxPriority`. -/
def specClaimSyntaxPriority (syn : String) : Int :=
  if syn = "Counter64" then 20
  else if syn = "Counter32" then 10
  else if syn = "BandwidthGBits" then 15
  else if syn = "BandwidthMBits" then 14
  else if syn = "BandwidthKBits" then 13
  else if syn = "BandwidthBits" || syn = "Gauge32" then 11
  else 0

/-- tagValue: stringify a varbind value for use as a dimension label. -/
def tagValue : GoValue → String
  | .str x => x
  | .i64 x => toString x
  | .u64 x => toString x
  | .bytes bs => String.mk bs
  | .boolean b => if b then "true" else "false"

/-- isEnumSyntax: only the explicit enum syntaxes get enum resolution. -/
def isEnumSyntax (syn : String) : Bool :=
  syn = "EnumInteger" || syn = "EnumIntegerKeepID" || syn = "EnumBitmap" ||
  syn = "EnumObjectIdentifier" || syn = "EnumObjectIdentifierKeepOID"

/-- toUint64Safe: convert a value to uint64 without panicking (the Go uint32,
uint and int cases concern types the decoder never produces). -/
def toUint64Safe : GoValue → Option Nat
  | .u64 x => some x
  | .i64 x => if 0 ≤ x then some x.toNat else none
  | _ => none

/-!  String helpers mirroring the Go strings package functions used.  -/

/-- Whitespace test for the ASCII whitespace Go's `strings.TrimSpace` trims
(the repository's OIDs contain no other space characters). -/
def isSpaceChar (c : Char) : Bool := c = ' ' || c = '\t' || c = '\n' || c = '\r'

/-- Drop leading and trailing whitespace from a character list. -/
def trimSpaceChars (s : List Char) : List Char :=
  ((s.dropWhile isSpaceChar).reverse.dropWhile isSpaceChar).reverse

/-- strings.TrimSpace. -/
def strTrimSpace (s : String) : String := String.mk (trimSpaceChars s.data)

/-- strings.TrimPrefix: remove one leading occurrence of `p` when present. -/
def strTrimPrefix (s p : String) : String :=
  if p.data.isPrefixOf s.data then String.mk (s.data.drop p.data.length) else s

/-- strings.TrimSuffix: remove one trailing occurrence of `p` when present. -/
def strTrimSuffix (s p : String) : String :=
  if p.data.isSuffixOf s.data then String.mk (s.data.take (s.data.length - p.data.length)) else s

/-!  producer/metrics/enrich.go — enum registry  -/

/-- IntEnum maps integer values (or bitmap bit positions) to labels. -/
structure IntEnum where
  isBitmap : Bool
  values : List (Int × String)
deriving DecidableEq, Repr

/-- EnumRegistry: per-OID tables for integer/bitmap enums and OID enums
(the reader-writer lock is irrelevant in the sequential model). -/
structure EnumRegistry where
  ints : List (String × IntEnum)
  oids : List (String × String)
deriving DecidableEq, Repr

/-- normaliseRegistryOID: trim whitespace and one leading dot. -/
def normaliseRegistryOID (oid : String) : String :=
  strTrimPrefix (strTrimSpace oid) "."

/-- RegisterIntEnum: add or replace the integer enumeration for an OID. -/
def EnumRegistry.RegisterIntEnum (r : EnumRegistry) (oid : String)
    (isBitmap : Bool) (values : List (Int × String)) : EnumRegistry :=
  { r with ints := alSet r.ints (normaliseRegistryOID oid) ⟨isBitmap, values⟩ }

/-- RegisterOIDEnum: add an OID-to-label mapping. -/
def EnumRegistry.RegisterOIDEnum (r : EnumRegistry) (oid label : String) : EnumRegistry :=
  { r with oids := alSet r.oids (normaliseRegistryOID oid) label }

/-- toInt64ForEnum: best-effort conversion to int64 for enum lookup; the
uint64 case narrows exactly as Go's `int64(x)` does (two's complement). -/
def toInt64ForEnum : GoValue → Option Int
  | .i64 x => some x
  | .u64 x => some (if x < 2 ^ 63 then (x : Int) else (x : Int) - (2 ^ 64 : Int))
  | _ => none

/-- resolveBitmap: comma-joined labels of the set bits 0..63 in ascending
order; the raw mask when no label matches. -/
def resolveBitmap (values : List (Int × String)) (mask : Int) : GoValue :=
  let m := (mask % (2 ^ 64 : Int)).toNat
  let active := (List.range 64).filterMap
    (fun bit => if m.testBit bit then alGet values (bit : Int) else none)
  if active = [] then .i64 mask else .str (String.intercalate "," active)

/-- EnumRegistry.Resolve: translate a raw value through the enum tables for
the given attribute OID; the raw value is returned unchanged when nothing
matches.  The OID-enumeration table is consulted first, exactly as in the
source. -/
def EnumRegistry.Resolve (r : EnumRegistry) (oid : String) (rawValue : GoValue) : GoValue :=
  let noid := normaliseRegistryOID oid
  match alGet r.oids noid with
  | some label => .str label
  | none =>
    match (match rawValue with
           | .str s => alGet r.oids (normaliseRegistryOID s)
           | _ => none) with
    | some label => .str label
    | none =>
      match alGet r.ints noid with
      | none => rawValue
      | some intEnum =>
        match toInt64ForEnum rawValue with
        | none => rawValue
        | some intVal =>
          if intEnum.isBitmap then resolveBitmap intEnum.values intVal
          else
            match alGet intEnum.values intVal with
            | some label => .str label
            | none => rawValue

/-!  producer/metrics/poll.go — Build (metric assembly)  -/

/-- DecodedVarbind (snmp/decoder/varbind.go): one decoded PDU.  The Go field
`Syntax` is rendered `syn` and `Instance` is rendered `inst`. -/
structure DecodedVarbind where
  oid : String
  attributeName : String
  inst : String
  value : GoValue
  snmpType : String
  syn : String
  isTag : Bool
deriving DecidableEq, Repr

/-- Device (models/config.go), reduced to the fields Build reads. -/
structure Device where
  hostname : String
  ipAddress : String
  snmpVersion : String
deriving DecidableEq, Repr

/-- DecodedPollResult: the decoder's output consumed by Build.  Times are
`Int` nanoseconds; `collectedAt = 0` models Go's zero time. -/
structure DecodedPollResult where
  device : Device
  objectDefKey : String
  collectedAt : Int
  pollDurationMs : Int
  varbinds : List DecodedVarbind
deriving DecidableEq, Repr

/-- BuildOptions: `countersEnabled` models `opts.Counters != nil`; the counter
entries themselves are passed to Build explicitly and returned updated. -/
structure BuildOptions where
  collectorID : String
  pollStatus : String
  enums : Option EnumRegistry
  countersEnabled : Bool
deriving DecidableEq, Repr

/-- Metric (models): the Go field `Type` is rendered `typ`, `Syntax` is
rendered `syn`, `Instance` is rendered `inst`; the tag map is an
association list. -/
structure Metric where
  oid : String
  name : String
  inst : String
  value : GoValue
  typ : String
  syn : String
  tags : List (String × String)
deriving DecidableEq, Repr

/-- MetricMetadata (models). -/
structure MetricMetadata where
  collectorID : String
  pollDurationMs : Int
  pollStatus : String
deriving DecidableEq, Repr

/-- SNMPMetric (models): the per-cycle payload Build returns. -/
structure SNMPMetric where
  timestamp : Int
  device : Device
  metrics : List Metric
  metadata : MetricMetadata
deriving DecidableEq, Repr

/-- Nested map write `tagsByInstance[inst][name] = val` with implicit inner
map creation, as in Build's step 1. -/
def setTag : List (String × List (String × String)) → String → String → String →
    List (String × List (String × String))
  | [], i, n, v => [(i, [(n, v)])]
  | p :: rest, i, n, v =>
      if p.1 = i then (p.1, alSet p.2 n v) :: rest else p :: setTag rest i n v

/-- One iteration of Build's partition loop (step 1): a tag varbind goes into
the per-instance tag map, a measurement varbind is appended to its instance's
candidate list. -/
def partitionStep
    (acc : List (String × List (String × String)) × List (String × List DecodedVarbind))
    (vb : DecodedVarbind) :
    List (String × List (String × String)) × List (String × List DecodedVarbind) :=
  if vb.isTag then (setTag acc.1 vb.inst vb.attributeName (tagValue vb.value), acc.2)
  else (acc.1, alAppend acc.2 vb.inst vb)

/-- Build steps 1–2: partition varbinds into per-instance tag maps and
per-instance measurement candidate lists. -/
def partitionVarbinds (vbs : List DecodedVarbind) :
    List (String × List (String × String)) × List (String × List DecodedVarbind) :=
  vbs.foldl partitionStep ([], [])

/-- Build step 3, one candidate: keep the stored varbind unless the incoming
one's syntax has strictly higher priority (`!exists ||` in the source). -/
def overrideStep (byName : List (String × DecodedVarbind)) (vb : DecodedVarbind) :
    List (String × DecodedVarbind) :=
  match alGet byName vb.attributeName with
  | none => byName ++ [(vb.attributeName, vb)]
  | some existing =>
      if syntaxPriority existing.syn < syntaxPriority vb.syn then
        alSet byName vb.attributeName vb
      else byName

/-- Build step 3: override resolution within one instance group. -/
def resolveNames (vbs : List DecodedVarbind) : List (String × DecodedVarbind) :=
  vbs.foldl overrideStep []

/-- Strip the instance suffix from a varbind's OID so the lookup key matches
the registry's base attribute OID (Build step 4). -/
def stripInstanceOID (vb : DecodedVarbind) : String :=
  if vb.inst ≠ "" then strTrimSuffix vb.oid ("." ++ vb.inst) else vb.oid

/-- Build step 4: enum resolution, applied only when a registry is configured
and the syntax is an enum syntax. -/
def applyEnum (opts : BuildOptions) (vb : DecodedVarbind) (value : GoValue) : GoValue :=
  match opts.enums with
  | some reg => if isEnumSyntax vb.syn then reg.Resolve (stripInstanceOID vb) value else value
  | none => value

/-- Build step 5: counter delta.  On an invalid delta (first observation) the
metric value becomes uint64 0; on a valid one it becomes the delta. -/
def applyCounter (opts : BuildOptions) (hostname inst : String) (vb : DecodedVarbind)
    (now : Int) (value : GoValue) (entries : CounterEntries) : GoValue × CounterEntries :=
  if opts.countersEnabled && IsCounterSyntax vb.syn then
    match toUint64Safe value with
    | some raw =>
        let r := CounterState.Delta entries ⟨hostname, vb.attributeName, inst⟩ raw now
          (WrapForSyntax vb.syn)
        (if r.2.valid then .u64 r.2.delta else .u64 0, r.1)
    | none => (value, entries)
  else (value, entries)

/-- Assemble one models.Metric from a winning varbind (Build step 6 body). -/
def buildMetric (opts : BuildOptions) (dev : Device)
    (tagsBy : List (String × List (String × String))) (now : Int) (inst : String)
    (vb : DecodedVarbind) (entries : CounterEntries) : Metric × CounterEntries :=
  let v1 := applyEnum opts vb vb.value
  let r := applyCounter opts dev.hostname inst vb now v1 entries
  (⟨vb.oid, vb.attributeName, inst, r.1, vb.snmpType, vb.syn, (alGet tagsBy inst).getD []⟩,
   r.2)

/-- Assemble all metrics of one instance group, threading the counter state. -/
def assembleGroup (opts : BuildOptions) (dev : Device)
    (tagsBy : List (String × List (String × String))) (now : Int) (inst : String) :
    List (String × DecodedVarbind) → CounterEntries → List Metric × CounterEntries
  | [], entries => ([], entries)
  | (_, vb) :: rest, entries =>
      let r1 := buildMetric opts dev tagsBy now inst vb entries
      let r2 := assembleGroup opts dev tagsBy now inst rest r1.2
      (r1.1 :: r2.1, r2.2)

/-- Assemble all instance groups, threading the counter state. -/
def assembleAll (opts : BuildOptions) (dev : Device)
    (tagsBy : List (String × List (String × String))) (now : Int) :
    List (String × List (String × DecodedVarbind)) → CounterEntries →
    List Metric × CounterEntries
  | [], entries => ([], entries)
  | (inst, byName) :: rest, entries =>
      let r1 := assembleGroup opts dev tagsBy now inst byName entries
      let r2 := assembleAll opts dev tagsBy now rest r1.2
      (r1.1 ++ r2.1, r2.2)

/-- Build: convert a DecodedPollResult into an SNMPMetric (poll.go).  `sysNow`
models the `time.Now()` fallback used when `collectedAt` is the zero time;
the updated counter entries are returned alongside the result. -/
def Build (decoded : DecodedPollResult) (opts : BuildOptions)
    (entries : CounterEntries) (sysNow : Int) : SNMPMetric × CounterEntries :=
  let now := if decoded.collectedAt = 0 then sysNow else decoded.collectedAt
  let parts := partitionVarbinds decoded.varbinds
  let resolved := parts.2.map (fun p => (p.1, resolveNames p.2))
  let r := assembleAll opts decoded.device parts.1 now resolved entries
  (⟨now, decoded.device, r.1, ⟨opts.collectorID, decoded.pollDurationMs, opts.pollStatus⟩⟩,
   r.2)

/-!  pkg/snmpcollector/poller/session.go — connection pool (sequential model)

Sessions are numeric ids handed out by a dial model that always succeeds with
a fresh id (`nextSession` ghost counter); `closedSessions` is a ghost list
recording every session on which `Conn.Close()` was called.  Blocking on the
per-device semaphore has no sequential counterpart and is modelled as the
distinguished error "blocked"; the closed-pool fast path in `Get` fires
before the semaphore exactly as in the source.  -/

/-- Session handles are identified by the order in which they were dialed. -/
abbrev Session := Nat

/-- PoolOptions (MaxIdlePerDevice, IdleTimeout in nanoseconds; the Dial
function is the fresh-id model above). -/
structure PoolOptions where
  maxIdlePerDevice : Int
  idleTimeout : Int
deriving DecidableEq, Repr

/-- PoolOptions.defaults: MaxIdlePerDevice falls back to 2. -/
def PoolOptions.defaults (o : PoolOptions) : PoolOptions :=
  { o with maxIdlePerDevice := if o.maxIdlePerDevice ≤ 0 then 2 else o.maxIdlePerDevice }

/-- poolEntry: an idle session plus the time it was returned. -/
structure PoolEntry where
  conn : Session
  returnedAt : Int
deriving DecidableEq, Repr

/-- devicePool: idle LIFO stack (append = push, pop from the end) plus the
concurrency semaphore rendered as capacity and used count. -/
structure DevicePool where
  idle : List PoolEntry
  semCapacity : Nat
  semUsed : Nat
deriving DecidableEq, Repr

/-- DeviceConfig, reduced to the one field the pool reads. -/
structure DeviceConfig where
  maxConcurrentPolls : Int
deriving DecidableEq, Repr

/-- The outcome of `ConnectionPool.Get`: a session or an error message. -/
inductive GetResult where
  | ok (s : Session)
  | err (msg : String)
deriving DecidableEq, Repr

/-- ConnectionPool state. -/
structure ConnectionPool where
  opts : PoolOptions
  pools : List (String × DevicePool)
  closed : Bool
  closedSessions : List Session
  nextSession : Session
deriving DecidableEq, Repr

/-- NewConnectionPool: empty pool with defaulted options. -/
def NewConnectionPool (opts : PoolOptions) : ConnectionPool :=
  { opts := opts.defaults, pools := [], closed := false,
    closedSessions := [], nextSession := 0 }

/-- getOrCreatePool: look the device pool up, creating it (semaphore sized to
max-concurrent-polls, default 4) when absent. -/
def getOrCreatePool (p : ConnectionPool) (hostname : String) (maxConcurrent : Int) :
    ConnectionPool × DevicePool :=
  match alGet p.pools hostname with
  | some dp => (p, dp)
  | none =>
      let cap := if maxConcurrent ≤ 0 then 4 else maxConcurrent
      let dp : DevicePool := ⟨[], cap.toNat, 0⟩
      ({ p with pools := alSet p.pools hostname dp }, dp)

/-- popIdle inner loop on the reversed idle list: pop from the end, close
entries older than the idle timeout, return the first fresh one.  Yields the
remaining stack (still reversed), the reused session and the sessions closed. -/
def popIdleRev (o : PoolOptions) (now : Int) :
    List PoolEntry → List PoolEntry × Option Session × List Session
  | [] => ([], none, [])
  | e :: rest =>
      if 0 < o.idleTimeout ∧ o.idleTimeout < now - e.returnedAt then
        let r := popIdleRev o now rest
        (r.1, r.2.1, e.conn :: r.2.2)
      else (rest, some e.conn, [])

/-- popIdle: LIFO reuse with idle-timeout expiry. -/
def popIdle (o : PoolOptions) (now : Int) (idle : List PoolEntry) :
    List PoolEntry × Option Session × List Session :=
  let r := popIdleRev o now idle.reverse
  (r.1.reverse, r.2.1, r.2.2)

/-- ConnectionPool.Get: reject when closed, acquire the semaphore, reuse an
idle session or dial a fresh one ("blocked" stands for waiting on the
semaphore, which the sequential model cannot express). -/
def ConnectionPool.Get (p : ConnectionPool) (hostname : String) (cfg : DeviceConfig)
    (now : Int) : ConnectionPool × GetResult :=
  let r0 := getOrCreatePool p hostname cfg.maxConcurrentPolls
  let p := r0.1
  let dp := r0.2
  if p.closed then (p, .err "pool closed")
  else if dp.semUsed < dp.semCapacity then
    let dp := { dp with semUsed := dp.semUsed + 1 }
    let r := popIdle p.opts now dp.idle
    let dp := { dp with idle := r.1 }
    match r.2.1 with
    | some s =>
        ({ p with pools := alSet p.pools hostname dp,
                  closedSessions := p.closedSessions ++ r.2.2 }, .ok s)
    | none =>
        let s := p.nextSession
        ({ p with pools := alSet p.pools hostname dp,
                  closedSessions := p.closedSessions ++ r.2.2,
                  nextSession := s + 1 }, .ok s)
  else (p, .err "blocked")

/-- ConnectionPool.Put: return a session for reuse.  NOTE: exactly as in the
source, there is no closed-pool check on this path. -/
def ConnectionPool.Put (p : ConnectionPool) (hostname : String) (conn : Session)
    (now : Int) : ConnectionPool :=
  match alGet p.pools hostname with
  | none => { p with closedSessions := p.closedSessions ++ [conn] }
  | some dp =>
      let dp := { dp with semUsed := dp.semUsed - 1 }
      if p.opts.maxIdlePerDevice ≤ (dp.idle.length : Int) then
        { p with pools := alSet p.pools hostname dp,
                 closedSessions := p.closedSessions ++ [conn] }
      else
        { p with pools := alSet p.pools hostname
                   { dp with idle := dp.idle ++ [⟨conn, now⟩] } }

/-- ConnectionPool.Discard: close a broken session, releasing its slot. -/
def ConnectionPool.Discard (p : ConnectionPool) (hostname : String) (conn : Session) :
    ConnectionPool :=
  let p := { p with closedSessions := p.closedSessions ++ [conn] }
  match alGet p.pools hostname with
  | none => p
  | some dp => { p with pools := alSet p.pools hostname { dp with semUsed := dp.semUsed - 1 } }

/-- ConnectionPool.Close: idempotently mark the pool closed and drain (close)
every idle session. -/
def ConnectionPool.Close (p : ConnectionPool) : ConnectionPool :=
  if p.closed then p
  else
    { p with closed := true,
             pools := p.pools.map (fun q => (q.1, { q.2 with idle := [] })),
             closedSessions :=
               p.closedSessions ++ (p.pools.map (fun q => q.2.idle.map PoolEntry.conn)).flatten }

/-!  snmp/decoder/varbind.go — OID→attribute matching

OIDs are manipulated here as `List Char` (the Go code cuts the string at the
last '.' with `strings.LastIndex`).  -/

/-- AttributeDefinition (models/config.go), reduced to the fields the varbind
parser reads. -/
structure AttributeDefinition where
  oid : String
  name : String
  syn : String
  isTag : Bool
deriving DecidableEq, Repr

/-- normaliseOID of the decoder package: trim whitespace, then one leading dot. -/
def decNormaliseOID (s : String) : List Char :=
  match trimSpaceChars s.data with
  | '.' :: rest => rest
  | t => t

/-- Split a character list at its LAST dot: `some (before, after)`, or `none`
when it has no dot (Go `strings.LastIndex(remaining, ".")`). -/
def lastDotSplit : List Char → Option (List Char × List Char)
  | [] => none
  | c :: rest =>
      match lastDotSplit rest with
      | some (p, suf) => some (c :: p, suf)
      | none => if c = '.' then some ([], rest) else none

/-- The right-to-left prefix scan of `matchAttribute`, with explicit fuel
(each Go loop iteration strictly shortens `remaining`, so fuel equal to the
initial length suffices).  Returns the matched prefix and its attribute. -/
def matchAttrScanFuel (attrs : List (List Char × AttributeDefinition)) :
    Nat → List Char → Option (List Char × AttributeDefinition)
  | 0, _ => none
  | fuel + 1, remaining =>
      match lastDotSplit remaining with
      | none => none
      | some (pre, _) =>
          match alGet attrs pre with
          | some a => some (pre, a)
          | none => matchAttrScanFuel attrs fuel pre

/-- The prefix scan started on the full OID. -/
def matchAttrScan (attrs : List (List Char × AttributeDefinition)) (s : List Char) :
    Option (List Char × AttributeDefinition) :=
  matchAttrScanFuel attrs s.length s

/-- matchAttribute: direct full-OID match first (instance "0"), otherwise the
right-to-left prefix scan; the instance is everything after the matched
prefix plus the separator (`fullOID[len(prefix)+1:]`). -/
def matchAttribute (attrs : List (List Char × AttributeDefinition)) (fullOID : List Char) :
    Option (AttributeDefinition × List Char) :=
  match alGet attrs fullOID with
  | some a => some (a, ['0'])
  | none =>
      match matchAttrScan attrs fullOID with
      | some (pre, a) => some (a, fullOID.drop (pre.length + 1))
      | none => none

/-!  snmp/trap/handler.go — trap parsing  -/

/-- The OID of snmpTrapOID.0, the header varbind carrying the trap OID. -/
def oidSnmpTrapOID : String := ".1.3.6.1.6.3.1.1.4.1.0"

/-- TrapInfo (models), with the Go zero values for unset fields. -/
structure TrapInfo where
  version : String
  enterpriseOID : String
  genericTrap : Int
  specificTrap : Int
  trapOID : String
deriving DecidableEq, Repr

/-- A raw gosnmp varbind as the trap parser sees it. -/
structure SnmpPDU where
  name : String
  typ : String
  value : GoValue
deriving DecidableEq, Repr

/-- normaliseOID of the trap package: leading dot ensured, one trailing dot
trimmed, empty stays empty. -/
def trapNormaliseOID (oid : String) : String :=
  let t := strTrimSpace oid
  if t = "" then ""
  else
    let t2 := if t.data.head? = some '.' then t else "." ++ t
    strTrimSuffix t2 "."

/-- Go's `fmt.Sprintf("%v", value)` restricted to the value model. -/
def fmtV : GoValue → String
  | .str s => s
  | .i64 x => toString x
  | .u64 x => toString x
  | .bytes bs => "[" ++ String.intercalate " " (bs.map (fun c => toString c.toNat)) ++ "]"
  | .boolean b => if b then "true" else "false"

/-- parsev1Info: TrapInfo from a v1 trap PDU's header fields, with the RFC
3584 §3.1 TrapOID synthesis (generic 0–5 standard, otherwise
enterprise-specific). -/
def parsev1Info (enterprise : String) (genericTrap specificTrap : Int) : TrapInfo :=
  let info : TrapInfo :=
    ⟨"v1", trapNormaliseOID enterprise, genericTrap, specificTrap, ""⟩
  if 0 ≤ genericTrap ∧ genericTrap < 6 then
    { info with trapOID := ".1.3.6.1.6.3.1.1.5." ++ toString (genericTrap + 1) }
  else
    { info with trapOID :=
        strTrimSuffix (trapNormaliseOID enterprise) "." ++ ".0." ++ toString specificTrap }

/-- The v2c/v3 header scan: first varbind whose normalised OID is
snmpTrapOID.0, together with the varbinds strictly after it. -/
def parsev2Scan : List SnmpPDU → Option (SnmpPDU × List SnmpPDU)
  | [] => none
  | v :: rest =>
      if trapNormaliseOID v.name = oidSnmpTrapOID then some (v, rest)
      else parsev2Scan rest

/-- parsev2Info: TrapInfo plus payload varbinds for a v2c/v3 trap.  When
snmpTrapOID.0 is absent this is not an error: TrapOID stays empty and every
varbind is payload.  The error component is always `none`, as in the source. -/
def parsev2Info (version : String) (vars : List SnmpPDU) :
    TrapInfo × List SnmpPDU × Option String :=
  let info : TrapInfo := ⟨"v" ++ version, "", 0, 0, ""⟩
  match parsev2Scan vars with
  | none => (info, vars, none)
  | some (v, remaining) =>
      ({ info with trapOID := trapNormaliseOID (fmtV v.value) }, remaining, none)

/-!  pkg/snmpcollector/scheduler/resolve.go — job resolution

`ResolveJobs` walks devices in hostname-sorted order; for one device it walks
device-groups → object-groups → object keys with a per-device `seen` set.
The per-device walk is embedded below; a PollJob of a fixed device is
determined by its object key (hostname, Device and DeviceConfig are constant
across the device's jobs and ObjectDef is the definition stored under the
key), so jobs are rendered as object keys.  -/

/-- LoadedConfig, reduced to what resolution reads: device-group name → its
object-group names, object-group name → its object keys, and the set of
object keys that have a definition. -/
structure LoadedConfig where
  deviceGroups : List (String × List String)
  objectGroups : List (String × List String)
  objectDefs : List String
deriving DecidableEq, Repr

/-- The innermost loop: walk object keys, skipping seen ones, marking every
new one seen, and emitting those that have a definition (unknown object
definitions are logged and skipped — but still marked seen, as in the
source). -/
def resolveObjs (defs : List String) :
    List String → List String × List String → List String × List String
  | [], acc => acc
  | objKey :: rest, acc =>
      if objKey ∈ acc.1 then resolveObjs defs rest acc
      else if objKey ∈ defs then
        resolveObjs defs rest (objKey :: acc.1, acc.2 ++ [objKey])
      else resolveObjs defs rest (objKey :: acc.1, acc.2)

/-- The middle loop: walk object-group names; unknown groups are skipped. -/
def resolveOgs (cfg : LoadedConfig) :
    List String → List String × List String → List String × List String
  | [], acc => acc
  | ogName :: rest, acc =>
      match alGet cfg.objectGroups ogName with
      | none => resolveOgs cfg rest acc
      | some objs => resolveOgs cfg rest (resolveObjs cfg.objectDefs objs acc)

/-- The outer loop: walk device-group names; unknown groups are skipped. -/
def resolveDgs (cfg : LoadedConfig) :
    List String → List String × List String → List String × List String
  | [], acc => acc
  | dgName :: rest, acc =>
      match alGet cfg.deviceGroups dgName with
      | none => resolveDgs cfg rest acc
      | some ogNames => resolveDgs cfg rest (resolveOgs cfg ogNames acc)

/-- One device's resolved job list (as object keys), from its device-group
name list. -/
def resolveDeviceObjects (cfg : LoadedConfig) (dgNames : List String) : List String :=
  (resolveDgs cfg dgNames ([], [])).2

/-- Touched: the object key is reachable from the device through some
device-group → object-group path of the configuration. -/
def Touched (cfg : LoadedConfig) (dgNames : List String) (k : String) : Prop :=
  ∃ g ∈ dgNames, ∃ ogNames, alGet cfg.deviceGroups g = some ogNames ∧
    ∃ og ∈ ogNames, ∃ objs, alGet cfg.objectGroups og = some objs ∧ k ∈ objs

/-- TouchedOgs: reachability from a list of object-group names (the inner
part of `Touched`). -/
def TouchedOgs (cfg : LoadedConfig) (ogNames : List String) (k : String) : Prop :=
  ∃ og ∈ ogNames, ∃ objs, alGet cfg.objectGroups og = some objs ∧ k ∈ objs

/-- optPerm: two optional lists that are both absent or permutations. -/
def optPerm : Option (List String) → Option (List String) → Prop
  | none, none => True
  | some l, some l' => l.Perm l'
  | _, _ => False

/-!  Proof-support definitions  -/

/-- The choice `overrideStep` makes between a stored candidate and an incoming
one, extracted for the fold characterisation of override resolution. -/
def pickBetter (acc : Option DecodedVarbind) (c : DecodedVarbind) : Option DecodedVarbind :=
  match acc with
  | none => some c
  | some w => if syntaxPriority w.syn < syntaxPriority c.syn then some c else some w

/-- Invariant of an override-resolution accumulator: keys are distinct, each
entry is stored under its own attribute name, and each stored varbind comes
from the candidate pool. -/
def ByNameInv (pool : List DecodedVarbind) (l : List (String × DecodedVarbind)) : Prop :=
  (l.map Prod.fst).Nodup ∧ ∀ p ∈ l, p.2.attributeName = p.1 ∧ p.2 ∈ pool

/-!  Concrete instances used by counterexamples and witnesses  -/

/-- The counter key of scenario S3 (claim C1). -/
def c1Key : CounterKey := ⟨"sw1", "netif.bytes.in", "1"⟩

/-- Counter state seeded at t0 = 1000 ns with value 2^32 − 100. -/
def c1Entries : CounterEntries := [(c1Key, ⟨4294967196, 1000⟩)]

/-- The second sample time: t0 + 60 s. -/
def c1T1 : Int := 1000 + 60 * 1000000000

/-- The second sample: Counter32 varbind with value 400. -/
def c1Vb : DecodedVarbind :=
  ⟨"1.3.6.1.2.1.2.2.1.10.1", "netif.bytes.in", "1", .u64 400, "Counter32", "Counter32", false⟩

/-- The decoded poll result carrying the second sample. -/
def c1Decoded : DecodedPollResult :=
  ⟨⟨"sw1", "10.0.0.1", "2c"⟩, "IF-MIB::ifEntry", c1T1, 10, [c1Vb]⟩

/-- Build options with counter state enabled. -/
def c1Opts : BuildOptions := ⟨"c1", "success", none, true⟩

/-- C2 trace, step 0: a fresh pool with MaxIdlePerDevice = 2. -/
def c2Pool0 : ConnectionPool := NewConnectionPool ⟨2, 0⟩

/-- C2 trace, step 1: Get a session for device sw1 (dials session 0). -/
def c2Get1 : ConnectionPool × GetResult := c2Pool0.Get "sw1" ⟨4⟩ 0

/-- C2 trace, step 2: Close the pool. -/
def c2Pool2 : ConnectionPool := c2Get1.1.Close

/-- C2 trace, step 3: Put session 0 back after Close. -/
def c2Pool3 : ConnectionPool := c2Pool2.Put "sw1" 0 5

/-- Scenario S2's Counter32 candidate (claim C3's witness). -/
def c3VbC32 : DecodedVarbind :=
  ⟨"1.3.6.1.2.1.2.2.1.10.1", "netif.bytes.in", "1", .u64 1000, "Counter32", "Counter32", false⟩

/-- Scenario S2's Counter64 candidate. -/
def c3VbHC : DecodedVarbind :=
  ⟨"1.3.6.1.2.1.31.1.1.1.6.1", "netif.bytes.in", "1", .u64 9999999999, "Counter64", "Counter64",
   false⟩

/-- Both candidates for one instance and one metric name. -/
def c3Vbs : List DecodedVarbind := [c3VbC32, c3VbHC]

/-- A first-observation decoded result for claim C5's witness. -/
def c5Decoded : DecodedPollResult :=
  ⟨⟨"sw1", "10.0.0.1", "2c"⟩, "IF-MIB::ifEntry", 2000, 10, [c1Vb]⟩

/-- The metric Build emits for `c5Decoded` from an empty counter state. -/
def c5Metric : Metric :=
  ⟨"1.3.6.1.2.1.2.2.1.10.1", "netif.bytes.in", "1", .u64 0, "Counter32", "Counter32", []⟩

/-- Scenario S5's varbind list (claim C6's witness). -/
def c6Vars : List SnmpPDU :=
  [⟨"1.3.6.1.2.1.1.3.0", "TimeTicks", .u64 123456⟩,
   ⟨"1.3.6.1.6.3.1.1.4.1.0", "ObjectIdentifier", .str ".1.3.6.1.6.3.1.1.5.3"⟩,
   ⟨"1.3.6.1.2.1.2.2.1.1.3", "Integer", .i64 3⟩,
   ⟨"1.3.6.1.2.1.2.2.1.8.3", "Integer", .i64 2⟩]

/-- An ifInOctets attribute index for claim C7's witness. -/
def c7Attrs : List (List Char × AttributeDefinition) :=
  [(decNormaliseOID ".1.3.6.1.2.1.2.2.1.10",
    ⟨".1.3.6.1.2.1.2.2.1.10", "netif.bytes.in", "Counter32", false⟩)]

/-- A configuration where object "A" is reachable through two paths
(claim C9's witness). -/
def c9Cfg : LoadedConfig :=
  ⟨[("g1", ["og1"]), ("g2", ["og1", "og2"])],
   [("og1", ["A", "B"]), ("og2", ["A", "C"])],
   ["A", "B", "C"]⟩

/-!  Generic association-list lemmas  -/

theorem alGet_alSet_self {α β : Type} [DecidableEq α] (l : List (α × β)) (k : α) (v : β) :
    alGet (alSet l k v) k = some v := by
  induction l with
  | nil => simp [alSet, alGet]
  | cons p rest ih =>
      obtain ⟨a, b⟩ := p
      by_cases h : a = k
      · simp [alSet, h, alGet]
      · simp [alSet, h, alGet, ih]

theorem alGet_alSet_ne {α β : Type} [DecidableEq α] (l : List (α × β)) (k a : α) (v : β)
    (h : ¬ k = a) : alGet (alSet l k v) a = alGet l a := by
  induction l with
  | nil => simp [alSet, alGet, h]
  | cons p rest ih =>
      obtain ⟨x, y⟩ := p
      by_cases hx : x = k
      · subst hx; simp [alSet, alGet, h]
      · simp [alSet, hx, alGet, ih]

theorem alGet_append_none {α β : Type} [DecidableEq α] (l₁ l₂ : List (α × β)) (a : α)
    (h : alGet l₁ a = none) : alGet (l₁ ++ l₂) a = alGet l₂ a := by
  induction l₁ with
  | nil => simp
  | cons p rest ih =>
      obtain ⟨x, y⟩ := p
      by_cases hx : x = a
      · simp [alGet, hx] at h
      · rw [List.cons_append]
        simp only [alGet] at h ⊢
        simp [hx] at h ⊢
        exact ih h

theorem alGet_append_left {α β : Type} [DecidableEq α] (l₁ l₂ : List (α × β)) (a : α) (v : β)
    (h : alGet l₁ a = some v) : alGet (l₁ ++ l₂) a = some v := by
  induction l₁ with
  | nil => simp [alGet] at h
  | cons p rest ih =>
      obtain ⟨x, y⟩ := p
      by_cases hx : x = a
      · simp [alGet, hx] at h ⊢; exact h
      · rw [List.cons_append]
        simp only [alGet] at h ⊢
        simp [hx] at h ⊢
        exact ih h

theorem alGet_eq_none_iff {α β : Type} [DecidableEq α] (l : List (α × β)) (a : α) :
    alGet l a = none ↔ a ∉ l.map Prod.fst := by
  induction l with
  | nil => simp [alGet]
  | cons p rest ih =>
      obtain ⟨x, y⟩ := p
      by_cases hx : x = a
      · simp [alGet, hx]
      · simp [alGet, hx, ih, Ne.symm hx]

theorem alGet_mem {α β : Type} [DecidableEq α] {l : List (α × β)} {a : α} {b : β}
    (h : alGet l a = some b) : (a, b) ∈ l := by
  induction l with
  | nil => simp [alGet] at h
  | cons p rest ih =>
      obtain ⟨x, y⟩ := p
      by_cases hx : x = a
      · subst hx
        simp [alGet] at h
        simp [h]
      · simp only [alGet, hx, if_false] at h
        exact List.mem_cons_of_mem _ (ih h)

theorem alSet_mem_or {α β : Type} [DecidableEq α] {l : List (α × β)} {k : α} {v : β} :
    ∀ p ∈ alSet l k v, p = (k, v) ∨ p ∈ l := by
  induction l with
  | nil => intro p hp; simp [alSet] at hp; simp [hp]
  | cons q rest ih =>
      obtain ⟨x, y⟩ := q
      intro p hp
      by_cases hx : x = k
      · simp only [alSet, hx, if_true] at hp
        rcases List.mem_cons.mp hp with h | h
        · exact Or.inl h
        · exact Or.inr (List.mem_cons_of_mem _ h)
      · simp only [alSet, hx, if_false] at hp
        rcases List.mem_cons.mp hp with h | h
        · exact Or.inr (by simp [h])
        · rcases ih p h with h' | h'
          · exact Or.inl h'
          · exact Or.inr (List.mem_cons_of_mem _ h')

theorem alSet_keys_mem {α β : Type} [DecidableEq α] (l : List (α × β)) (k : α) (v : β)
    (h : k ∈ l.map Prod.fst) : (alSet l k v).map Prod.fst = l.map Prod.fst := by
  induction l with
  | nil => simp at h
  | cons q rest ih =>
      obtain ⟨x, y⟩ := q
      by_cases hx : x = k
      · simp [alSet, hx]
      · have hk : k ∈ rest.map Prod.fst := by
          simp only [List.map_cons, List.mem_cons] at h
          rcases h with h | h
          · exact absurd h.symm hx
          · exact h
        simp [alSet, hx, ih hk]

theorem alAppend_keys {α β : Type} [DecidableEq α] (l : List (α × List β)) (a : α) (b : β) :
    (alAppend l a b).map Prod.fst =
      (if a ∈ l.map Prod.fst then l.map Prod.fst else l.map Prod.fst ++ [a]) := by
  induction l with
  | nil => simp [alAppend]
  | cons q rest ih =>
      obtain ⟨x, vs⟩ := q
      by_cases hx : x = a
      · simp [alAppend, hx]
      · simp only [alAppend, hx, if_false, List.map_cons, ih]
        by_cases hm : a ∈ rest.map Prod.fst
        · simp [hm, Ne.symm hx]
        · simp [hm, Ne.symm hx]

theorem alAppend_keys_nodup {α β : Type} [DecidableEq α] (l : List (α × List β)) (a : α) (b : β)
    (h : (l.map Prod.fst).Nodup) : ((alAppend l a b).map Prod.fst).Nodup := by
  rw [alAppend_keys]
  by_cases hm : a ∈ l.map Prod.fst
  · simpa [hm] using h
  · simp only [hm, if_false]
    simpa [List.nodup_append, hm] using h

theorem alAppend_values {α β : Type} [DecidableEq α] {pool : List β}
    {l : List (α × List β)} {a : α} {b : β}
    (hl : ∀ q ∈ l, ∀ x ∈ q.2, x ∈ pool) (hb : b ∈ pool) :
    ∀ q ∈ alAppend l a b, ∀ x ∈ q.2, x ∈ pool := by
  induction l with
  | nil =>
      intro q hq x hx
      simp [alAppend] at hq
      subst hq
      simp at hx
      subst hx
      exact hb
  | cons p rest ih =>
      obtain ⟨k, vs⟩ := p
      intro q hq x hx
      by_cases hk : k = a
      · simp only [alAppend, hk, if_true] at hq
        rcases List.mem_cons.mp hq with h | h
        · subst h
          simp only [List.mem_append, List.mem_singleton] at hx
          rcases hx with h' | h'
          · exact hl (k, vs) (by simp) x h'
          · simpa [h'] using hb
        · exact hl q (List.mem_cons_of_mem _ h) x hx
      · simp only [alAppend, hk, if_false] at hq
        rcases List.mem_cons.mp hq with h | h
        · subst h
          exact hl (k, vs) (by simp) x hx
        · exact ih (fun q' hq' => hl q' (List.mem_cons_of_mem _ hq')) q h x hx

/-!  Override resolution (claim C3)  -/

theorem alGet_overrideStep (byName : List (String × DecodedVarbind)) (vb : DecodedVarbind)
    (n : String) :
    alGet (overrideStep byName vb) n =
      (if vb.attributeName = n then pickBetter (alGet byName n) vb else alGet byName n) := by
  unfold overrideStep
  cases hg : alGet byName vb.attributeName with
  | none =>
      by_cases hn : vb.attributeName = n
      · subst hn
        rw [alGet_append_none _ _ _ hg]
        simp [alGet, pickBetter, hg]
      · simp only [if_neg hn]
        cases hl : alGet byName n with
        | none => rw [alGet_append_none _ _ _ hl]; simp [alGet, hn]
        | some w => rw [alGet_append_left _ _ _ _ hl]
  | some existing =>
      by_cases hp : syntaxPriority existing.syn < syntaxPriority vb.syn
      · simp only [if_pos hp]
        by_cases hn : vb.attributeName = n
        · subst hn
          rw [alGet_alSet_self]
          simp [pickBetter, hg, hp]
        · rw [alGet_alSet_ne _ _ _ _ hn]
          simp [if_neg hn]
      · simp only [if_neg hp]
        by_cases hn : vb.attributeName = n
        · subst hn
          simp [pickBetter, hg, hp]
        · simp [if_neg hn]

theorem foldl_overrideStep_alGet (vbs : List DecodedVarbind)
    (byName : List (String × DecodedVarbind)) (n : String) :
    alGet (vbs.foldl overrideStep byName) n =
      (vbs.filter (fun vb => vb.attributeName == n)).foldl pickBetter (alGet byName n) := by
  induction vbs generalizing byName with
  | nil => simp
  | cons vb rest ih =>
      rw [List.foldl_cons, ih]
      by_cases hn : vb.attributeName = n
      · simp [List.filter_cons, hn, alGet_overrideStep]
      · simp [List.filter_cons, hn, alGet_overrideStep]

theorem pickBetter_isSome (acc : Option DecodedVarbind) (c : DecodedVarbind) :
    (pickBetter acc c).isSome := by
  cases acc with
  | none => simp [pickBetter]
  | some w => simp only [pickBetter]; split <;> simp

theorem foldl_pickBetter_isSome (l : List DecodedVarbind) (acc : Option DecodedVarbind)
    (h : acc.isSome) : (l.foldl pickBetter acc).isSome := by
  induction l generalizing acc with
  | nil => exact h
  | cons c rest ih => exact ih _ (pickBetter_isSome acc c)

theorem foldl_pickBetter_ne_none (c : DecodedVarbind) (rest : List DecodedVarbind) :
    ((c :: rest).foldl pickBetter none).isSome := by
  rw [List.foldl_cons]
  exact foldl_pickBetter_isSome rest _ (by simp [pickBetter])

theorem foldl_pickBetter_spec (cands : List DecodedVarbind) (w : DecodedVarbind)
    (h : cands.foldl pickBetter none = some w) :
    ∃ pre post, cands = pre ++ w :: post ∧
      (∀ c ∈ cands, syntaxPriority c.syn ≤ syntaxPriority w.syn) ∧
      (∀ c ∈ pre, syntaxPriority c.syn < syntaxPriority w.syn) := by
  induction cands using List.reverseRecOn generalizing w with
  | nil => simp at h
  | append_singleton l c ih =>
      rw [List.foldl_append, List.foldl_cons, List.foldl_nil] at h
      cases hl : l.foldl pickBetter none with
      | none =>
          have hl0 : l = [] := by
            cases l with
            | nil => rfl
            | cons x xs =>
                have hx := foldl_pickBetter_ne_none x xs
                rw [hl] at hx
                simp at hx
          subst hl0
          simp only [List.foldl_nil] at h
          simp [pickBetter] at h
          subst h
          exact ⟨[], [], by simp, by simp, by simp⟩
      | some w0 =>
          rw [hl] at h
          obtain ⟨pre0, post0, heq, hmax, hpre⟩ := ih w0 hl
          by_cases hw : syntaxPriority w0.syn < syntaxPriority c.syn
          · simp [pickBetter, hw] at h
            subst h
            refine ⟨l, [], by simp, ?_, ?_⟩
            · intro x hx
              rcases List.mem_append.mp hx with hx | hx
              · exact le_of_lt (lt_of_le_of_lt (hmax x hx) hw)
              · simp at hx; subst hx; exact le_refl _
            · intro x hx
              exact lt_of_le_of_lt (hmax x hx) hw
          · simp [pickBetter, hw] at h
            subst h
            refine ⟨pre0, post0 ++ [c], ?_, ?_, hpre⟩
            · rw [heq]; simp
            · intro x hx
              rcases List.mem_append.mp hx with hx | hx
              · exact hmax x hx
              · simp at hx; subst hx; exact le_of_not_lt hw

/-- C3 (amended): during override resolution the producer keeps, per instance
and metric name, the candidate whose syntax has the highest `syntaxPriority`
per the source's table (Counter64 = 20; BandwidthGBits = 14; BandwidthMBits
= 13; BandwidthKBits = 12; BandwidthBits and Gauge32 = 11; Counter32 = 10;
anything else 0), and on equal priority the first encountered candidate. -/
theorem override_keeps_highest_priority :
    (syntaxPriority "Counter64" = 20 ∧ syntaxPriority "BandwidthGBits" = 14 ∧
     syntaxPriority "BandwidthMBits" = 13 ∧ syntaxPriority "BandwidthKBits" = 12 ∧
     syntaxPriority "BandwidthBits" = 11 ∧ syntaxPriority "Gauge32" = 11 ∧
     syntaxPriority "Counter32" = 10 ∧ syntaxPriority "DisplayString" = 0) ∧
    ∀ (vbs : List DecodedVarbind) (n : String),
      (∃ vb ∈ vbs, vb.attributeName = n) →
      ∃ w pre post,
        alGet (resolveNames vbs) n = some w ∧
        vbs.filter (fun vb => vb.attributeName == n) = pre ++ w :: post ∧
        (∀ c ∈ vbs.filter (fun vb => vb.attributeName == n),
            syntaxPriority c.syn ≤ syntaxPriority w.syn) ∧
        (∀ c ∈ pre, syntaxPriority c.syn < syntaxPriority w.syn) := by
  refine ⟨by decide, ?_⟩
  intro vbs n hex
  have hchar : alGet (resolveNames vbs) n =
      (vbs.filter (fun vb => vb.attributeName == n)).foldl pickBetter none := by
    have h0 := foldl_overrideStep_alGet vbs [] n
    simpa [resolveNames, alGet] using h0
  obtain ⟨vb, hvb, hn⟩ := hex
  cases hf : vbs.filter (fun vb => vb.attributeName == n) with
  | nil =>
      exfalso
      have hmem : vb ∈ vbs.filter (fun vb => vb.attributeName == n) := by
        simp [List.mem_filter, hvb, hn]
      rw [hf] at hmem
      simp at hmem
  | cons c rest =>
      have hs := foldl_pickBetter_ne_none c rest
      cases hw : (c :: rest).foldl pickBetter none with
      | none => rw [hw] at hs; simp at hs
      | some w =>
          obtain ⟨pre, post, heq, hmax, hpre⟩ := foldl_pickBetter_spec (c :: rest) w hw
          refine ⟨w, pre, post, ?_, heq, ?_, hpre⟩
          · rw [hchar, hf, hw]
          · intro x hx
            exact hmax x hx

/-- C3 counterexample: the source's priority for BandwidthGBits is 14 while
the claim's table says 15 (specClaimSyntaxPriority renders the claim's
numbers), so the code does not use the claimed priority values. -/
theorem syntaxPriority_differs_from_spec_table :
    syntaxPriority "BandwidthGBits" = 14 ∧ specClaimSyntaxPriority "BandwidthGBits" = 15 ∧
    ¬ syntaxPriority "BandwidthGBits" = specClaimSyntaxPriority "BandwidthGBits" := by decide

/-- C3 witness: on scenario S2's candidates the Counter64 varbind wins. -/
theorem override_keeps_highest_priority_witness :
    alGet (resolveNames c3Vbs) "netif.bytes.in" = some c3VbHC ∧
    (∃ w pre post,
        alGet (resolveNames c3Vbs) "netif.bytes.in" = some w ∧
        c3Vbs.filter (fun vb => vb.attributeName == "netif.bytes.in") = pre ++ w :: post ∧
        (∀ c ∈ c3Vbs.filter (fun vb => vb.attributeName == "netif.bytes.in"),
            syntaxPriority c.syn ≤ syntaxPriority w.syn) ∧
        (∀ c ∈ pre, syntaxPriority c.syn < syntaxPriority w.syn)) :=
  ⟨by decide, override_keeps_highest_priority.2 c3Vbs "netif.bytes.in" (by decide)⟩

/-!  Batch uniqueness (claim C4)  -/

theorem partition_fold_keys (vbs : List DecodedVarbind)
    (acc : List (String × List (String × String)) × List (String × List DecodedVarbind))
    (h : (acc.2.map Prod.fst).Nodup) :
    (((vbs.foldl partitionStep acc).2).map Prod.fst).Nodup := by
  induction vbs generalizing acc with
  | nil => exact h
  | cons vb rest ih =>
      rw [List.foldl_cons]
      refine ih _ ?_
      unfold partitionStep
      by_cases ht : vb.isTag
      · simpa [ht] using h
      · simpa [ht] using alAppend_keys_nodup acc.2 vb.inst vb h

theorem partitionVarbinds_keys (vbs : List DecodedVarbind) :
    (((partitionVarbinds vbs).2).map Prod.fst).Nodup :=
  partition_fold_keys vbs ([], []) (by simp)

theorem partition_fold_values (vbs : List DecodedVarbind) (pool : List DecodedVarbind)
    (acc : List (String × List (String × String)) × List (String × List DecodedVarbind))
    (hacc : ∀ q ∈ acc.2, ∀ v ∈ q.2, v ∈ pool) (hsub : ∀ vb ∈ vbs, vb ∈ pool) :
    ∀ q ∈ (vbs.foldl partitionStep acc).2, ∀ v ∈ q.2, v ∈ pool := by
  induction vbs generalizing acc with
  | nil => exact hacc
  | cons vb rest ih =>
      rw [List.foldl_cons]
      refine ih _ ?_ (fun x hx => hsub x (List.mem_cons_of_mem _ hx))
      unfold partitionStep
      by_cases ht : vb.isTag
      · simpa [ht] using hacc
      · simpa [ht] using alAppend_values hacc (hsub vb (by simp))

theorem partitionVarbinds_values (vbs : List DecodedVarbind) :
    ∀ q ∈ (partitionVarbinds vbs).2, ∀ v ∈ q.2, v ∈ vbs :=
  partition_fold_values vbs vbs ([], []) (by simp) (fun _ h => h)

theorem overrideStep_inv {pool : List DecodedVarbind} {l : List (String × DecodedVarbind)}
    (h : ByNameInv pool l) {vb : DecodedVarbind} (hvb : vb ∈ pool) :
    ByNameInv pool (overrideStep l vb) := by
  obtain ⟨hk, hv⟩ := h
  unfold overrideStep
  cases hg : alGet l vb.attributeName with
  | none =>
      constructor
      · have hnm : vb.attributeName ∉ l.map Prod.fst := (alGet_eq_none_iff _ _).mp hg
        simp [List.nodup_append, hk, hnm]
      · intro p hp
        rcases List.mem_append.mp hp with hp | hp
        · exact hv p hp
        · simp at hp
          subst hp
          exact ⟨rfl, hvb⟩
  | some existing =>
      by_cases hp : syntaxPriority existing.syn < syntaxPriority vb.syn
      · simp only [if_pos hp]
        constructor
        · have hm : vb.attributeName ∈ l.map Prod.fst := by
            by_contra hnm
            rw [← alGet_eq_none_iff] at hnm
            rw [hg] at hnm
            simp at hnm
          rw [alSet_keys_mem _ _ _ hm]
          exact hk
        · intro p hp'
          rcases alSet_mem_or p hp' with h' | h'
          · subst h'
            exact ⟨rfl, hvb⟩
          · exact hv p h'
      · simp only [if_neg hp]
        exact ⟨hk, hv⟩

theorem resolveNames_inv (pool : List DecodedVarbind) (vbs : List DecodedVarbind)
    (hsub : ∀ vb ∈ vbs, vb ∈ pool) : ByNameInv pool (resolveNames vbs) := by
  have haux : ∀ (l : List DecodedVarbind) (acc : List (String × DecodedVarbind)),
      (∀ vb ∈ l, vb ∈ pool) → ByNameInv pool acc →
      ByNameInv pool (l.foldl overrideStep acc) := by
    intro l
    induction l with
    | nil => intro acc _ hacc; exact hacc
    | cons vb rest ih =>
        intro acc hsub' hacc
        rw [List.foldl_cons]
        exact ih _ (fun x hx => hsub' x (List.mem_cons_of_mem _ hx))
          (overrideStep_inv hacc (hsub' vb (by simp)))
  exact haux vbs [] hsub ⟨by simp, by simp⟩

theorem assembleGroup_pairs (opts : BuildOptions) (dev : Device)
    (tagsBy : List (String × List (String × String))) (now : Int) (inst : String)
    (byName : List (String × DecodedVarbind)) (entries : CounterEntries)
    (hinv : ∀ p ∈ byName, p.2.attributeName = p.1) :
    ((assembleGroup opts dev tagsBy now inst byName entries).1).map (fun m => (m.inst, m.name))
      = byName.map (fun p => (inst, p.1)) := by
  induction byName generalizing entries with
  | nil => simp [assembleGroup]
  | cons p rest ih =>
      obtain ⟨n, vb⟩ := p
      have hn : vb.attributeName = n := hinv (n, vb) (by simp)
      simp only [assembleGroup, List.map_cons]
      rw [ih _ (fun q hq => hinv q (List.mem_cons_of_mem _ hq))]
      simp [buildMetric, hn]

theorem assembleAll_pairs (opts : BuildOptions) (dev : Device)
    (tagsBy : List (String × List (String × String))) (now : Int)
    (groups : List (String × List (String × DecodedVarbind))) (entries : CounterEntries)
    (hinv : ∀ g ∈ groups, ∀ p ∈ g.2, p.2.attributeName = p.1) :
    ((assembleAll opts dev tagsBy now groups entries).1).map (fun m => (m.inst, m.name))
      = (groups.map (fun g => g.2.map (fun p => (g.1, p.1)))).flatten := by
  induction groups generalizing entries with
  | nil => simp [assembleAll]
  | cons g rest ih =>
      obtain ⟨inst, byName⟩ := g
      simp only [assembleAll, List.map_cons, List.flatten_cons, List.map_append]
      rw [assembleGroup_pairs _ _ _ _ _ _ _ (fun p hp => hinv (inst, byName) (by simp) p hp)]
      rw [ih _ (fun q hq => hinv q (List.mem_cons_of_mem _ hq))]

theorem grouped_pairs_nodup (groups : List (String × List (String × DecodedVarbind)))
    (hk : (groups.map Prod.fst).Nodup)
    (hg : ∀ g ∈ groups, (g.2.map Prod.fst).Nodup) :
    ((groups.map (fun g => g.2.map (fun p => (g.1, p.1)))).flatten).Nodup := by
  induction groups with
  | nil => simp
  | cons g rest ih =>
      obtain ⟨inst, byName⟩ := g
      simp only [List.map_cons, List.flatten_cons]
      rw [List.nodup_append]
      refine ⟨?_, ?_, ?_⟩
      · have h1 : (byName.map Prod.fst).Nodup := hg (inst, byName) (by simp)
        have h2 : byName.map (fun p => (inst, p.1)) =
            (byName.map Prod.fst).map (fun n => (inst, n)) := by
          simp [List.map_map, Function.comp]
        rw [h2]
        exact h1.map (fun a b hab => by simpa using hab)
      · exact ih (by simpa using hk.of_cons)
          (fun q hq => hg q (List.mem_cons_of_mem _ hq))
      · intro x hx hx'
        simp only [List.mem_map] at hx
        obtain ⟨p, _, hpx⟩ := hx
        simp only [List.mem_flatten, List.mem_map] at hx'
        obtain ⟨l', ⟨g', hg', hl'⟩, hxl'⟩ := hx'
        subst hl'
        simp only [List.mem_map] at hxl'
        obtain ⟨q, _, hqx⟩ := hxl'
        have hfst : inst = g'.1 := by
          rw [← hpx] at hqx
          exact ((Prod.mk.injEq _ _ _ _).mp hqx).1.symm
        have : g'.1 ∈ rest.map Prod.fst := List.mem_map_of_mem Prod.fst hg'
        rw [← hfst] at this
        simp only [List.map_cons, List.nodup_cons] at hk
        exact hk.1 this

/-- C4: for every DecodedPollResult, Build emits at most one Metric per
(instance, metric-name) pair — the pair list of the batch has no duplicate. -/
theorem build_instance_name_unique (decoded : DecodedPollResult) (opts : BuildOptions)
    (entries : CounterEntries) (sysNow : Int) :
    (((Build decoded opts entries sysNow).1.metrics).map (fun m => (m.inst, m.name))).Nodup := by
  unfold Build
  simp only
  set parts := partitionVarbinds decoded.varbinds with hparts
  set resolved := parts.2.map (fun p => (p.1, resolveNames p.2)) with hres
  have hinv : ∀ g ∈ resolved, ∀ p ∈ g.2, p.2.attributeName = p.1 := by
    intro g hgmem p hp
    rw [hres] at hgmem
    simp only [List.mem_map] at hgmem
    obtain ⟨q, hq, hgq⟩ := hgmem
    subst hgq
    exact ((resolveNames_inv q.2 q.2 (fun _ h => h)).2 p hp).1
  rw [assembleAll_pairs _ _ _ _ _ _ hinv]
  refine grouped_pairs_nodup resolved ?_ ?_
  · have : resolved.map Prod.fst = parts.2.map Prod.fst := by
      rw [hres]; simp [List.map_map, Function.comp]
    rw [this]
    exact partitionVarbinds_keys decoded.varbinds
  · intro g hgmem
    rw [hres] at hgmem
    simp only [List.mem_map] at hgmem
    obtain ⟨q, hq, hgq⟩ := hgmem
    subst hgq
    exact (resolveNames_inv q.2 q.2 (fun _ h => h)).1

/-!  Counter seeding (claim C5)  -/

theorem Delta_entries (entries : CounterEntries) (key : CounterKey) (current : Nat)
    (now : Int) (wrap : Nat) :
    (CounterState.Delta entries key current now wrap).1 = alSet entries key ⟨current, now⟩ := by
  unfold CounterState.Delta
  cases alGet entries key with
  | none => rfl
  | some prev => by_cases h : now - prev.seenAt ≤ 0 <;> simp [h]

theorem Delta_fresh (entries : CounterEntries) (key : CounterKey) (current : Nat)
    (now : Int) (wrap : Nat) (h : alGet entries key = none) :
    (CounterState.Delta entries key current now wrap).2 = ⟨0, 0, false⟩ := by
  simp [CounterState.Delta, h]

theorem Remove_alGet (entries : CounterEntries) (key : CounterKey) :
    alGet (CounterState.Remove entries key) key = none := by
  rw [alGet_eq_none_iff]
  intro hmem
  simp only [CounterState.Remove, List.mem_map] at hmem
  obtain ⟨q, hq, hqk⟩ := hmem
  have hne := List.of_mem_filter hq
  simp at hne
  exact hne hqk

theorem alGet_filter_of_not_mem {α β : Type} [DecidableEq α] (l : List (α × β))
    (p : α × β → Bool) (a : α) (h : a ∉ l.map Prod.fst) : alGet (l.filter p) a = none := by
  rw [alGet_eq_none_iff]
  intro hmem
  apply h
  simp only [List.mem_map] at hmem ⊢
  obtain ⟨q, hq, hqa⟩ := hmem
  exact ⟨q, List.mem_of_mem_filter hq, hqa⟩

theorem alGet_filter_none {α β : Type} [DecidableEq α] (l : List (α × β)) (p : α × β → Bool)
    (a : α) (e : β) (hnd : (l.map Prod.fst).Nodup) (hget : alGet l a = some e)
    (hp : p (a, e) = false) : alGet (l.filter p) a = none := by
  induction l with
  | nil => simp [alGet] at hget
  | cons q rest ih =>
      obtain ⟨k, v⟩ := q
      simp only [List.map_cons, List.nodup_cons] at hnd
      by_cases hk : k = a
      · subst hk
        simp [alGet] at hget
        subst hget
        rw [List.filter_cons, hp]
        simp only [Bool.false_eq_true, if_false]
        exact alGet_filter_of_not_mem rest p _ hnd.1
      · simp only [alGet, hk, if_false] at hget
        rw [List.filter_cons]
        by_cases hq : p (k, v) = true
        · rw [if_pos hq]
          simp only [alGet, hk, if_false]
          exact ih hnd.2 hget
        · rw [if_neg hq]
          exact ih hnd.2 hget

theorem Purge_alGet (entries : CounterEntries) (maxAge now : Int) (key : CounterKey)
    (e : counterEntry) (hnd : (entries.map Prod.fst).Nodup)
    (hget : alGet entries key = some e) (hold : e.seenAt < now - maxAge) :
    alGet (CounterState.Purge entries maxAge now).1 key = none := by
  unfold CounterState.Purge
  refine alGet_filter_none entries _ key e hnd hget ?_
  simp [hold]

theorem applyCounter_state (opts : BuildOptions) (hostname inst : String)
    (vb : DecodedVarbind) (now : Int) (value : GoValue) (entries : CounterEntries)
    (K : CounterKey) (hne : ¬ CounterKey.mk hostname vb.attributeName inst = K) :
    alGet (applyCounter opts hostname inst vb now value entries).2 K = alGet entries K := by
  unfold applyCounter
  by_cases hc : (opts.countersEnabled && IsCounterSyntax vb.syn) = true
  · rw [if_pos hc]
    cases ht : toUint64Safe value with
    | none => rfl
    | some raw =>
        simp only [Delta_entries]
        exact alGet_alSet_ne _ _ _ _ hne
  · rw [if_neg hc]

theorem buildMetric_state (opts : BuildOptions) (dev : Device)
    (tagsBy : List (String × List (String × String))) (now : Int) (inst : String)
    (vb : DecodedVarbind) (entries : CounterEntries) (K : CounterKey)
    (hne : ¬ CounterKey.mk dev.hostname vb.attributeName inst = K) :
    alGet (buildMetric opts dev tagsBy now inst vb entries).2 K = alGet entries K :=
  applyCounter_state opts dev.hostname inst vb now _ entries K hne

theorem applyEnum_counter (opts : BuildOptions) (vb : DecodedVarbind)
    (hcs : IsCounterSyntax vb.syn = true) : applyEnum opts vb vb.value = vb.value := by
  have hor : vb.syn = "Counter32" ∨ vb.syn = "Counter64" := by
    simpa [IsCounterSyntax, Bool.or_eq_true, decide_eq_true_eq] using hcs
  have hf : isEnumSyntax vb.syn = false := by
    rcases hor with h | h <;> rw [h] <;> decide
  unfold applyEnum
  cases opts.enums with
  | none => rfl
  | some reg => simp [hf]

theorem applyCounter_fresh (opts : BuildOptions) (hostname inst : String)
    (vb : DecodedVarbind) (now : Int) (value : GoValue) (entries : CounterEntries) (raw : Nat)
    (hen : opts.countersEnabled = true) (hcs : IsCounterSyntax vb.syn = true)
    (hconv : toUint64Safe value = some raw)
    (hfresh : alGet entries (CounterKey.mk hostname vb.attributeName inst) = none) :
    (applyCounter opts hostname inst vb now value entries).1 = GoValue.u64 0 := by
  unfold applyCounter
  rw [hen, hcs]
  simp only [Bool.and_self, if_true, hconv]
  rw [Delta_fresh entries _ raw now (WrapForSyntax vb.syn) hfresh]
  simp

theorem buildMetric_value_zero (opts : BuildOptions) (dev : Device)
    (tagsBy : List (String × List (String × String))) (now : Int) (inst : String)
    (vb : DecodedVarbind) (entries : CounterEntries)
    (hen : opts.countersEnabled = true) (hcs : IsCounterSyntax vb.syn = true)
    (hconv : (toUint64Safe vb.value).isSome = true)
    (hfresh : alGet entries (CounterKey.mk dev.hostname vb.attributeName inst) = none) :
    (buildMetric opts dev tagsBy now inst vb entries).1.value = GoValue.u64 0 := by
  obtain ⟨raw, hraw⟩ := Option.isSome_iff_exists.mp hconv
  show (applyCounter opts dev.hostname inst vb now (applyEnum opts vb vb.value) entries).1
      = GoValue.u64 0
  rw [applyEnum_counter opts vb hcs]
  exact applyCounter_fresh opts dev.hostname inst vb now vb.value entries raw hen hcs hraw hfresh

theorem assembleGroup_state (opts : BuildOptions) (dev : Device)
    (tagsBy : List (String × List (String × String))) (now : Int) (inst : String)
    (byName : List (String × DecodedVarbind)) (entries : CounterEntries) (K : CounterKey)
    (hK : ∀ p ∈ byName, ¬ CounterKey.mk dev.hostname p.2.attributeName inst = K) :
    alGet (assembleGroup opts dev tagsBy now inst byName entries).2 K = alGet entries K := by
  induction byName generalizing entries with
  | nil => rfl
  | cons p rest ih =>
      obtain ⟨n, vb⟩ := p
      simp only [assembleGroup]
      rw [ih _ (fun q hq => hK q (List.mem_cons_of_mem _ hq))]
      exact buildMetric_state opts dev tagsBy now inst vb entries K (hK (n, vb) (by simp))

theorem assembleGroup_name_mem (opts : BuildOptions) (dev : Device)
    (tagsBy : List (String × List (String × String))) (now : Int) (inst : String)
    (byName : List (String × DecodedVarbind)) (entries : CounterEntries)
    (hinv : ∀ p ∈ byName, p.2.attributeName = p.1) :
    ∀ m ∈ (assembleGroup opts dev tagsBy now inst byName entries).1,
      m.inst = inst ∧ m.name ∈ byName.map Prod.fst := by
  intro m hm
  have hp := assembleGroup_pairs opts dev tagsBy now inst byName entries hinv
  have hmem : (m.inst, m.name) ∈
      ((assembleGroup opts dev tagsBy now inst byName entries).1).map
        (fun m => (m.inst, m.name)) :=
    List.mem_map_of_mem _ hm
  rw [hp] at hmem
  simp only [List.mem_map] at hmem
  obtain ⟨q, hq, hqm⟩ := hmem
  have h1 : m.inst = inst := by
    have := congrArg Prod.fst hqm
    simpa using this.symm
  have h2 : m.name = q.1 := by
    have := congrArg Prod.snd hqm
    simpa using this.symm
  exact ⟨h1, h2 ▸ List.mem_map_of_mem Prod.fst hq⟩

theorem assembleGroup_zero (opts : BuildOptions) (dev : Device)
    (tagsBy : List (String × List (String × String))) (now : Int) (inst : String)
    (pool : List DecodedVarbind) (hen : opts.countersEnabled = true)
    (hpool : ∀ vb ∈ pool, IsCounterSyntax vb.syn = true → (toUint64Safe vb.value).isSome = true) :
    ∀ (byName : List (String × DecodedVarbind)) (entries : CounterEntries),
      (byName.map Prod.fst).Nodup →
      (∀ p ∈ byName, p.2.attributeName = p.1 ∧ p.2 ∈ pool) →
      ∀ m ∈ (assembleGroup opts dev tagsBy now inst byName entries).1,
        IsCounterSyntax m.syn = true →
        alGet entries (CounterKey.mk dev.hostname m.name inst) = none →
        m.value = GoValue.u64 0 := by
  intro byName
  induction byName with
  | nil => intro entries _ _ m hm; simp [assembleGroup] at hm
  | cons p rest ih =>
      obtain ⟨n, vb⟩ := p
      intro entries hnames hinv m hm hcs hfresh
      have hrest_nodup : (rest.map Prod.fst).Nodup := by
        simp only [List.map_cons, List.nodup_cons] at hnames
        exact hnames.2
      simp only [assembleGroup, List.mem_cons] at hm
      rcases hm with hm | hm
      · have hname : m.name = vb.attributeName := by rw [hm]; rfl
        have hsyn : m.syn = vb.syn := by rw [hm]; rfl
        rw [hm]
        refine buildMetric_value_zero opts dev tagsBy now inst vb entries hen ?_ ?_ ?_
        · rw [← hsyn]; exact hcs
        · exact hpool vb (hinv (n, vb) (by simp)).2 (by rw [← hsyn]; exact hcs)
        · rw [← hname]; exact hfresh
      · have hnm : m.name ∈ rest.map Prod.fst :=
          (assembleGroup_name_mem opts dev tagsBy now inst rest _
            (fun q hq => (hinv q (List.mem_cons_of_mem _ hq)).1) m hm).2
        have hnn : vb.attributeName = n := (hinv (n, vb) (by simp)).1
        have hne : ¬ n = m.name := by
          intro h
          simp only [List.map_cons, List.nodup_cons] at hnames
          exact hnames.1 (h ▸ hnm)
        have hkne : ¬ CounterKey.mk dev.hostname vb.attributeName inst =
            CounterKey.mk dev.hostname m.name inst := by
          intro h
          have h2 := congrArg CounterKey.attr h
          simp only [] at h2
          rw [hnn] at h2
          exact hne h2
        have hstate : alGet (buildMetric opts dev tagsBy now inst vb entries).2
            (CounterKey.mk dev.hostname m.name inst) = none := by
          rw [buildMetric_state opts dev tagsBy now inst vb entries _ hkne]
          exact hfresh
        exact ih _ hrest_nodup (fun q hq => hinv q (List.mem_cons_of_mem _ hq)) m hm hcs hstate

theorem assembleAll_inst_mem (opts : BuildOptions) (dev : Device)
    (tagsBy : List (String × List (String × String))) (now : Int)
    (groups : List (String × List (String × DecodedVarbind))) (entries : CounterEntries)
    (hinv : ∀ g ∈ groups, ∀ p ∈ g.2, p.2.attributeName = p.1) :
    ∀ m ∈ (assembleAll opts dev tagsBy now groups entries).1, m.inst ∈ groups.map Prod.fst := by
  intro m hm
  have hp := assembleAll_pairs opts dev tagsBy now groups entries hinv
  have hmem : (m.inst, m.name) ∈
      ((assembleAll opts dev tagsBy now groups entries).1).map (fun m => (m.inst, m.name)) :=
    List.mem_map_of_mem _ hm
  rw [hp] at hmem
  simp only [List.mem_flatten, List.mem_map] at hmem
  obtain ⟨l', ⟨g, hg, hlg⟩, hml⟩ := hmem
  subst hlg
  simp only [List.mem_map] at hml
  obtain ⟨q, hq, hqm⟩ := hml
  have hfst : m.inst = g.1 := by
    have := congrArg Prod.fst hqm
    simpa using this.symm
  rw [hfst]
  exact List.mem_map_of_mem Prod.fst hg

theorem assembleAll_zero (opts : BuildOptions) (dev : Device)
    (tagsBy : List (String × List (String × String))) (now : Int)
    (pool : List DecodedVarbind) (hen : opts.countersEnabled = true)
    (hpool : ∀ vb ∈ pool, IsCounterSyntax vb.syn = true → (toUint64Safe vb.value).isSome = true) :
    ∀ (groups : List (String × List (String × DecodedVarbind))) (entries : CounterEntries),
      (groups.map Prod.fst).Nodup →
      (∀ g ∈ groups, (g.2.map Prod.fst).Nodup ∧
          ∀ p ∈ g.2, p.2.attributeName = p.1 ∧ p.2 ∈ pool) →
      ∀ m ∈ (assembleAll opts dev tagsBy now groups entries).1,
        IsCounterSyntax m.syn = true →
        alGet entries (CounterKey.mk dev.hostname m.name m.inst) = none →
        m.value = GoValue.u64 0 := by
  intro groups
  induction groups with
  | nil => intro entries _ _ m hm; simp [assembleAll] at hm
  | cons g rest ih =>
      obtain ⟨inst, byName⟩ := g
      intro entries hk hg m hm hcs hfresh
      simp only [assembleAll, List.mem_append] at hm
      rcases hm with hm | hm
      · have hmi : m.inst = inst :=
          (assembleGroup_name_mem opts dev tagsBy now inst byName entries
            (fun p hp => ((hg (inst, byName) (by simp)).2 p hp).1) m hm).1
        refine assembleGroup_zero opts dev tagsBy now inst pool hen hpool byName entries
          (hg (inst, byName) (by simp)).1 (hg (inst, byName) (by simp)).2 m hm hcs ?_
        rw [← hmi]
        exact hfresh
      · have hmi : m.inst ∈ rest.map Prod.fst :=
          assembleAll_inst_mem opts dev tagsBy now rest _
            (fun g' hg' p hp => ((hg g' (List.mem_cons_of_mem _ hg')).2 p hp).1) m hm
        have hne : ¬ inst = m.inst := by
          intro h
          simp only [List.map_cons, List.nodup_cons] at hk
          exact hk.1 (h ▸ hmi)
        have hKcond : ∀ p ∈ byName, ¬ CounterKey.mk dev.hostname p.2.attributeName inst =
            CounterKey.mk dev.hostname m.name m.inst := by
          intro p hp h
          have h2 := congrArg CounterKey.inst h
          exact hne h2
        have hstate : alGet (assembleGroup opts dev tagsBy now inst byName entries).2
            (CounterKey.mk dev.hostname m.name m.inst) = none := by
          rw [assembleGroup_state opts dev tagsBy now inst byName entries _ hKcond]
          exact hfresh
        refine ih _ ?_ (fun g' hg' => hg g' (List.mem_cons_of_mem _ hg')) m hm hcs hstate
        simp only [List.map_cons, List.nodup_cons] at hk
        exact hk.2

/-- C5: with counter state enabled, a counter key with no stored previous
entry — first observation, or after Remove or Purge deleted it — makes Delta
return Valid = false, and the metric is still emitted with value exactly
uint64 0 (never the raw cumulative value). -/
theorem counter_first_observation :
    (∀ (entries : CounterEntries) (key : CounterKey) (current : Nat) (now : Int) (wrap : Nat),
        alGet entries key = none →
        (CounterState.Delta entries key current now wrap).2.valid = false) ∧
    (∀ (entries : CounterEntries) (key : CounterKey),
        alGet (CounterState.Remove entries key) key = none) ∧
    (∀ (entries : CounterEntries) (maxAge now : Int) (key : CounterKey) (e : counterEntry),
        (entries.map Prod.fst).Nodup → alGet entries key = some e →
        e.seenAt < now - maxAge →
        alGet (CounterState.Purge entries maxAge now).1 key = none) ∧
    (∀ (decoded : DecodedPollResult) (opts : BuildOptions) (entries : CounterEntries)
        (sysNow : Int) (m : Metric),
        opts.countersEnabled = true →
        (∀ vb ∈ decoded.varbinds, IsCounterSyntax vb.syn = true →
            (toUint64Safe vb.value).isSome = true) →
        m ∈ (Build decoded opts entries sysNow).1.metrics →
        IsCounterSyntax m.syn = true →
        alGet entries (CounterKey.mk decoded.device.hostname m.name m.inst) = none →
        m.value = GoValue.u64 0) := by
  refine ⟨?_, Remove_alGet, Purge_alGet, ?_⟩
  · intro entries key current now wrap h
    rw [Delta_fresh entries key current now wrap h]
  · intro decoded opts entries sysNow m hen hconv hm hcs hfresh
    simp only [Build] at hm
    refine assembleAll_zero opts decoded.device (partitionVarbinds decoded.varbinds).1 _
      decoded.varbinds hen hconv
      ((partitionVarbinds decoded.varbinds).2.map (fun p => (p.1, resolveNames p.2)))
      entries ?_ ?_ m hm hcs hfresh
    · have hkeys : ((partitionVarbinds decoded.varbinds).2.map
          (fun p => (p.1, resolveNames p.2))).map Prod.fst =
          (partitionVarbinds decoded.varbinds).2.map Prod.fst := by
        simp [List.map_map, Function.comp]
      rw [hkeys]
      exact partitionVarbinds_keys decoded.varbinds
    · intro g hgmem
      simp only [List.mem_map] at hgmem
      obtain ⟨q, hq, hgq⟩ := hgmem
      subst hgq
      have hq2 : ∀ v ∈ q.2, v ∈ decoded.varbinds :=
        partitionVarbinds_values decoded.varbinds q hq
      have hinv := resolveNames_inv decoded.varbinds q.2 hq2
      exact ⟨hinv.1, hinv.2⟩

/-- C5 witness: concrete first observation, Remove, Purge, and a Build from
an empty counter state emitting value 0. -/
theorem counter_first_observation_witness :
    (CounterState.Delta [] c1Key 400 2000 4294967295).2.valid = false ∧
    alGet (CounterState.Remove c1Entries c1Key) c1Key = none ∧
    alGet (CounterState.Purge c1Entries 0 1000000000000).1 c1Key = none ∧
    c5Metric ∈ (Build c5Decoded c1Opts [] 0).1.metrics ∧
    c5Metric.value = GoValue.u64 0 :=
  ⟨counter_first_observation.1 [] c1Key 400 2000 4294967295 rfl,
   counter_first_observation.2.1 c1Entries c1Key,
   counter_first_observation.2.2.1 c1Entries 0 1000000000000 c1Key ⟨4294967196, 1000⟩
     (by decide) (by decide) (by decide),
   by decide,
   counter_first_observation.2.2.2 c5Decoded c1Opts [] 0 c5Metric rfl (by decide) (by decide)
     (by decide) rfl⟩

/-!  Counter wrap (claim C1)  -/

/-- C1 counterexample: Counter32 seeded at t0 with 2^32 − 100 and observed
60 s later with 400 makes Build emit metric value uint64 500 — not 501 as
claimed — since wrap_max − previous = 99 and 99 + 400 + 1 = 500. -/
theorem counter_wrap_counterexample :
    (Build c1Decoded c1Opts c1Entries 0).1.metrics.map Metric.value = [GoValue.u64 500] ∧
    ¬ (Build c1Decoded c1Opts c1Entries 0).1.metrics.map Metric.value = [GoValue.u64 501] ∧
    (CounterState.Delta c1Entries c1Key 400 c1T1 (WrapForSyntax "Counter32")).2 =
      ⟨500, 60 * 1000000000, true⟩ := by decide

/-- C1 (amended): on scenario S3 the emitted metric value is exactly 500,
i.e. (wrap_max − previous) + current + 1 = 99 + 400 + 1, and the reported
elapsed time is 60 s with a valid delta. -/
theorem counter_wrap_amended :
    (Build c1Decoded c1Opts c1Entries 0).1.metrics.map Metric.value = [GoValue.u64 500] ∧
    (CounterState.Delta c1Entries c1Key 400 c1T1 (WrapForSyntax "Counter32")).2.delta =
      (4294967295 - 4294967196) + 400 + 1 ∧
    (CounterState.Delta c1Entries c1Key 400 c1T1 (WrapForSyntax "Counter32")).2.elapsed =
      60 * 1000000000 ∧
    (CounterState.Delta c1Entries c1Key 400 c1T1 (WrapForSyntax "Counter32")).2.valid
      = true := by decide

/-!  Pool close semantics (claim C2)  -/

theorem getOrCreatePool_closed (p : ConnectionPool) (h : String) (mc : Int) :
    (getOrCreatePool p h mc).1.closed = p.closed := by
  unfold getOrCreatePool
  cases alGet p.pools h <;> rfl

/-- C2: evaluating the code on the failing trace — Get before Close hands out
session 0, every Get after Close errors, yet Put after Close re-appends the
session into sw1's idle list and never closes it. -/
theorem pool_put_after_close_behaviour :
    c2Get1.2 = GetResult.ok 0 ∧
    (∀ (hostname : String) (cfg : DeviceConfig) (now : Int),
        (c2Pool2.Get hostname cfg now).2 = GetResult.err "pool closed") ∧
    (alGet c2Pool3.pools "sw1").map (fun dp => dp.idle.map PoolEntry.conn) = some [0] ∧
    ¬ (0 : Nat) ∈ c2Pool3.closedSessions := by
  refine ⟨by decide, ?_, by decide, by decide⟩
  intro hostname cfg now
  unfold ConnectionPool.Get
  have hc : (getOrCreatePool c2Pool2 hostname cfg.maxConcurrentPolls).1.closed = true := by
    rw [getOrCreatePool_closed]
    decide
  simp [hc]

/-!  v2c/v3 trap header scan (claim C6)  -/

theorem parsev2Scan_none (vars : List SnmpPDU)
    (h : ∀ v ∈ vars, ¬ trapNormaliseOID v.name = oidSnmpTrapOID) :
    parsev2Scan vars = none := by
  induction vars with
  | nil => rfl
  | cons v rest ih =>
      simp only [parsev2Scan]
      rw [if_neg (h v (by simp))]
      exact ih (fun x hx => h x (List.mem_cons_of_mem _ hx))

theorem parsev2Scan_at (vars : List SnmpPDU) (i : Nat) (h : i < vars.length)
    (hi : trapNormaliseOID (vars.get ⟨i, h⟩).name = oidSnmpTrapOID)
    (hfirst : ∀ (j : Nat) (hj : j < i),
        ¬ trapNormaliseOID (vars.get ⟨j, Nat.lt_trans hj h⟩).name = oidSnmpTrapOID) :
    parsev2Scan vars = some (vars.get ⟨i, h⟩, vars.drop (i + 1)) := by
  induction vars generalizing i with
  | nil => exact absurd h (by simp)
  | cons v rest ih =>
      cases i with
      | zero =>
          simp only [parsev2Scan]
          rw [if_pos (show trapNormaliseOID v.name = oidSnmpTrapOID from hi)]
          rfl
      | succ i' =>
          have hv : ¬ trapNormaliseOID v.name = oidSnmpTrapOID := hfirst 0 (Nat.succ_pos i')
          simp only [parsev2Scan]
          rw [if_neg hv]
          exact ih i' (Nat.lt_of_succ_lt_succ h) hi
            (fun j hj => hfirst (j + 1) (Nat.succ_lt_succ hj))

/-- C6: parsev2Info never errors, locates snmpTrapOID.0 by scanning the whole
varbind list (first occurrence, not assuming position 1), takes its value as
the TrapOID, and returns exactly the varbinds strictly after it as payload;
when snmpTrapOID.0 is absent, TrapOID is empty and all varbinds are payload. -/
theorem trap_v2_header_scan :
    ∀ (version : String) (vars : List SnmpPDU),
      (parsev2Info version vars).2.2 = none ∧
      ((∀ v ∈ vars, ¬ trapNormaliseOID v.name = oidSnmpTrapOID) →
          (parsev2Info version vars).1.trapOID = "" ∧ (parsev2Info version vars).2.1 = vars) ∧
      (∀ (i : Nat) (h : i < vars.length),
          trapNormaliseOID (vars.get ⟨i, h⟩).name = oidSnmpTrapOID →
          (∀ (j : Nat) (hj : j < i),
              ¬ trapNormaliseOID (vars.get ⟨j, Nat.lt_trans hj h⟩).name = oidSnmpTrapOID) →
          (parsev2Info version vars).1.trapOID =
            trapNormaliseOID (fmtV (vars.get ⟨i, h⟩).value) ∧
          (parsev2Info version vars).2.1 = vars.drop (i + 1)) := by
  intro version vars
  refine ⟨?_, ?_, ?_⟩
  · unfold parsev2Info
    cases parsev2Scan vars with
    | none => rfl
    | some p => obtain ⟨v, r⟩ := p; rfl
  · intro habs
    unfold parsev2Info
    rw [parsev2Scan_none vars habs]
    exact ⟨rfl, rfl⟩
  · intro i h hi hf
    unfold parsev2Info
    rw [parsev2Scan_at vars i h hi hf]
    exact ⟨rfl, rfl⟩

/-- C6 witness: scenario S5 — snmpTrapOID.0 sits at index 1, TrapOID is its
value and the payload is the last two varbinds; the parse reports no error. -/
theorem trap_v2_header_scan_witness :
    (parsev2Info "2c" c6Vars).1.trapOID = ".1.3.6.1.6.3.1.1.5.3" ∧
    (parsev2Info "2c" c6Vars).2.1 = c6Vars.drop 2 ∧
    (parsev2Info "2c" c6Vars).2.2 = none := by
  have h := (trap_v2_header_scan "2c" c6Vars).2.2 1 (by decide) (by decide) (by decide)
  refine ⟨?_, h.2, (trap_v2_header_scan "2c" c6Vars).1⟩
  rw [h.1]
  decide

/-!  Decoder OID matching (claim C7)  -/

theorem lastDotSplit_eq : ∀ (s p suf : List Char), lastDotSplit s = some (p, suf) →
    s = p ++ '.' :: suf := by
  intro s
  induction s with
  | nil => intro p suf h; simp [lastDotSplit] at h
  | cons c rest ih =>
      intro p suf h
      simp only [lastDotSplit] at h
      cases hr : lastDotSplit rest with
      | some q =>
          obtain ⟨p0, suf0⟩ := q
          rw [hr] at h
          simp only [Option.some.injEq, Prod.mk.injEq] at h
          obtain ⟨hp, hsuf⟩ := h
          rw [← hp, ← hsuf, List.cons_append, ← ih p0 suf0 hr]
      | none =>
          rw [hr] at h
          by_cases hc : c = '.'
          · rw [if_pos hc] at h
            simp only [Option.some.injEq, Prod.mk.injEq] at h
            obtain ⟨hp, hsuf⟩ := h
            rw [← hp, ← hsuf, hc]
            simp
          · rw [if_neg hc] at h
            exact absurd h (by simp)

theorem matchAttrScanFuel_spec (attrs : List (List Char × AttributeDefinition)) :
    ∀ (fuel : Nat) (s pre : List Char) (a : AttributeDefinition),
      matchAttrScanFuel attrs fuel s = some (pre, a) →
      alGet attrs pre = some a ∧ ∃ rest, s = pre ++ '.' :: rest := by
  intro fuel
  induction fuel with
  | zero => intro s pre a h; simp [matchAttrScanFuel] at h
  | succ f ih =>
      intro s pre a h
      cases hs : lastDotSplit s with
      | none => simp [matchAttrScanFuel, hs] at h
      | some q =>
          obtain ⟨p0, suf0⟩ := q
          cases hg : alGet attrs p0 with
          | some a0 =>
              simp only [matchAttrScanFuel, hs, hg, Option.some.injEq, Prod.mk.injEq] at h
              obtain ⟨h1, h2⟩ := h
              rw [← h1, ← h2]
              exact ⟨hg, suf0, lastDotSplit_eq s p0 suf0 hs⟩
          | none =>
              simp only [matchAttrScanFuel, hs, hg] at h
              obtain ⟨hget, rest, hrest⟩ := ih p0 pre a h
              refine ⟨hget, rest ++ '.' :: suf0, ?_⟩
              rw [lastDotSplit_eq s p0 suf0 hs, hrest]
              simp

theorem drop_append_cons (l r : List Char) (c : Char) :
    (l ++ c :: r).drop (l.length + 1) = r := by
  induction l with
  | nil => simp
  | cons x xs ih => simp only [List.cons_append, List.length_cons, List.drop_succ_cons]; exact ih

/-- C7: whenever the decoder's matcher resolves a varbind OID, either it was
a direct full-OID match (instance "0" and the attribute's normalised OID is
the whole varbind OID), or the varbind OID is the attribute's normalised OID
followed by the dot separator and the instance. -/
theorem decoder_oid_match (attrs : List (List Char × AttributeDefinition))
    (fullOID : List Char) (a : AttributeDefinition) (inst : List Char)
    (hwf : ∀ p ∈ attrs, p.1 = decNormaliseOID p.2.oid)
    (h : matchAttribute attrs fullOID = some (a, inst)) :
    (decNormaliseOID a.oid = fullOID ∧ inst = ['0']) ∨
    fullOID = decNormaliseOID a.oid ++ '.' :: inst := by
  cases hg : alGet attrs fullOID with
  | some a0 =>
      simp only [matchAttribute, hg, Option.some.injEq, Prod.mk.injEq] at h
      obtain ⟨ha, hi⟩ := h
      left
      rw [← ha]
      exact ⟨(hwf (fullOID, a0) (alGet_mem hg)).symm, hi.symm⟩
  | none =>
      cases hs : matchAttrScan attrs fullOID with
      | none => simp [matchAttribute, hg, hs] at h
      | some q =>
          obtain ⟨pre, a0⟩ := q
          simp only [matchAttribute, hg, hs, Option.some.injEq, Prod.mk.injEq] at h
          obtain ⟨ha, hi⟩ := h
          obtain ⟨hget, rest, hrest⟩ :=
            matchAttrScanFuel_spec attrs fullOID.length fullOID pre a0
              (by simpa [matchAttrScan] using hs)
          have hpre : pre = decNormaliseOID a0.oid := hwf (pre, a0) (alGet_mem hget)
          right
          rw [← ha, ← hpre]
          rw [hrest] at hi ⊢
          rw [drop_append_cons] at hi
          rw [← hi]

/-- C7 witness: the table OID 1.3.6.1.2.1.2.2.1.10.1 matches the ifInOctets
attribute with instance "1", and the matched OID plus separator plus
instance reassembles the varbind OID. -/
theorem decoder_oid_match_witness :
    matchAttribute c7Attrs ("1.3.6.1.2.1.2.2.1.10.1".data) =
      some (⟨".1.3.6.1.2.1.2.2.1.10", "netif.bytes.in", "Counter32", false⟩, ['1']) ∧
    ((decNormaliseOID ".1.3.6.1.2.1.2.2.1.10" = "1.3.6.1.2.1.2.2.1.10.1".data ∧ ['1'] = ['0']) ∨
      "1.3.6.1.2.1.2.2.1.10.1".data = decNormaliseOID ".1.3.6.1.2.1.2.2.1.10" ++ '.' :: ['1']) :=
  ⟨by decide,
   decoder_oid_match c7Attrs ("1.3.6.1.2.1.2.2.1.10.1".data)
     ⟨".1.3.6.1.2.1.2.2.1.10", "netif.bytes.in", "Counter32", false⟩ ['1']
     (by decide) (by decide)⟩

/-!  v1 trap OID synthesis (claim C8)  -/

/-- C8: for generic-trap 0–5 the synthesised TrapOID is
.1.3.6.1.6.3.1.1.5.(generic+1); for generic-trap 6 with a canonical
enterprise OID E (leading dot, no trailing dot) it is E.0.S. -/
theorem v1_trapOID_synthesis :
    ∀ (enterprise : String) (g s : Int),
      (0 ≤ g → g < 6 →
        (parsev1Info enterprise g s).trapOID = ".1.3.6.1.6.3.1.1.5." ++ toString (g + 1)) ∧
      (g = 6 → trapNormaliseOID enterprise = enterprise →
        strTrimSuffix enterprise "." = enterprise →
        (parsev1Info enterprise g s).trapOID = enterprise ++ ".0." ++ toString s) := by
  intro ent g s
  constructor
  · intro h0 h6
    unfold parsev1Info
    rw [if_pos ⟨h0, h6⟩]
  · intro hg hnorm htrim
    subst hg
    unfold parsev1Info
    rw [if_neg (by decide)]
    rw [hnorm, htrim]

/-- C8 witness: generic 2 (linkDown) synthesises .1.3.6.1.6.3.1.1.5.3, and an
enterprise-specific trap with enterprise .1.3.6.1.4.1.9 and specific 42
synthesises .1.3.6.1.4.1.9.0.42. -/
theorem v1_trapOID_synthesis_witness :
    (parsev1Info ".1.3.6.1.4.1.9" 2 0).trapOID = ".1.3.6.1.6.3.1.1.5.3" ∧
    (parsev1Info ".1.3.6.1.4.1.9" 6 42).trapOID = ".1.3.6.1.4.1.9.0.42" := by
  constructor
  · have h := (v1_trapOID_synthesis ".1.3.6.1.4.1.9" 2 0).1 (by decide) (by decide)
    rw [h]
    decide
  · have h := (v1_trapOID_synthesis ".1.3.6.1.4.1.9" 6 42).2 rfl (by decide) (by decide)
    rw [h]
    decide

/-!  Scheduler resolution (claim C9)  -/

theorem resolveObjs_seen (defs : List String) :
    ∀ (objs : List String) (acc : List String × List String) (k : String),
      (k ∈ (resolveObjs defs objs acc).1 ↔ k ∈ acc.1 ∨ k ∈ objs) := by
  intro objs
  induction objs with
  | nil => intro acc k; simp [resolveObjs]
  | cons o rest ih =>
      intro acc k
      unfold resolveObjs
      by_cases ho : o ∈ acc.1
      · rw [if_pos ho, ih]
        simp only [List.mem_cons]
        constructor
        · tauto
        · rintro (h | h | h)
          · tauto
          · subst h; tauto
          · tauto
      · by_cases hd : o ∈ defs
        · rw [if_neg ho, if_pos hd, ih]
          simp only [List.mem_cons]
          tauto
        · rw [if_neg ho, if_neg hd, ih]
          simp only [List.mem_cons]
          tauto

theorem resolveObjs_jobs (defs : List String) :
    ∀ (objs : List String) (acc : List String × List String) (k : String),
      (k ∈ (resolveObjs defs objs acc).2 ↔
        k ∈ acc.2 ∨ (¬ k ∈ acc.1 ∧ k ∈ objs ∧ k ∈ defs)) := by
  intro objs
  induction objs with
  | nil => intro acc k; simp [resolveObjs]
  | cons o rest ih =>
      intro acc k
      unfold resolveObjs
      by_cases hk : k = o
      · subst hk
        by_cases ho : k ∈ acc.1
        · rw [if_pos ho, ih]
          simp only [List.mem_cons]
          tauto
        · by_cases hd : k ∈ defs
          · rw [if_neg ho, if_pos hd, ih]
            simp only [List.mem_cons, List.mem_append, List.mem_singleton]
            tauto
          · rw [if_neg ho, if_neg hd, ih]
            simp only [List.mem_cons]
            tauto
      · by_cases ho : o ∈ acc.1
        · rw [if_pos ho, ih]
          simp only [List.mem_cons]
          tauto
        · by_cases hd : o ∈ defs
          · rw [if_neg ho, if_pos hd, ih]
            simp only [List.mem_cons, List.mem_append, List.mem_singleton]
            tauto
          · rw [if_neg ho, if_neg hd, ih]
            simp only [List.mem_cons]
            tauto

theorem resolveObjs_inv (defs : List String) :
    ∀ (objs : List String) (acc : List String × List String),
      acc.2.Nodup → (∀ j ∈ acc.2, j ∈ acc.1) →
      ((resolveObjs defs objs acc).2.Nodup ∧
        ∀ j ∈ (resolveObjs defs objs acc).2, j ∈ (resolveObjs defs objs acc).1) := by
  intro objs
  induction objs with
  | nil => intro acc h1 h2; exact ⟨h1, h2⟩
  | cons o rest ih =>
      intro acc h1 h2
      unfold resolveObjs
      by_cases ho : o ∈ acc.1
      · rw [if_pos ho]; exact ih acc h1 h2
      · by_cases hd : o ∈ defs
        · rw [if_neg ho, if_pos hd]
          refine ih _ ?_ ?_
          · have hno : o ∉ acc.2 := fun hmem => ho (h2 o hmem)
            simp [List.nodup_append, h1, hno]
          · intro j hj
            simp only [List.mem_append, List.mem_singleton] at hj
            rcases hj with hj | hj
            · exact List.mem_cons_of_mem _ (h2 j hj)
            · subst hj; simp
        · rw [if_neg ho, if_neg hd]
          refine ih _ h1 ?_
          intro j hj
          exact List.mem_cons_of_mem _ (h2 j hj)

theorem TouchedOgs_cons_none (cfg : LoadedConfig) (og : String) (rest : List String)
    (k : String) (hog : alGet cfg.objectGroups og = none) :
    TouchedOgs cfg (og :: rest) k ↔ TouchedOgs cfg rest k := by
  unfold TouchedOgs
  constructor
  · rintro ⟨g, hg, objs, hobjs, hk⟩
    rcases List.mem_cons.mp hg with h | h
    · subst h; rw [hog] at hobjs; cases hobjs
    · exact ⟨g, h, objs, hobjs, hk⟩
  · rintro ⟨g, hg, objs, hobjs, hk⟩
    exact ⟨g, List.mem_cons_of_mem _ hg, objs, hobjs, hk⟩

theorem TouchedOgs_cons_some (cfg : LoadedConfig) (og : String) (rest : List String)
    (k : String) (objs : List String) (hog : alGet cfg.objectGroups og = some objs) :
    TouchedOgs cfg (og :: rest) k ↔ k ∈ objs ∨ TouchedOgs cfg rest k := by
  unfold TouchedOgs
  constructor
  · rintro ⟨g, hg, objs', hobjs', hk⟩
    rcases List.mem_cons.mp hg with h | h
    · subst h
      rw [hog] at hobjs'
      obtain rfl : objs = objs' := by injection hobjs'
      exact Or.inl hk
    · exact Or.inr ⟨g, h, objs', hobjs', hk⟩
  · rintro (hk | ⟨g, hg, objs', hobjs', hk⟩)
    · exact ⟨og, by simp, objs, hog, hk⟩
    · exact ⟨g, List.mem_cons_of_mem _ hg, objs', hobjs', hk⟩

theorem resolveOgs_seen (cfg : LoadedConfig) :
    ∀ (ogNames : List String) (acc : List String × List String) (k : String),
      (k ∈ (resolveOgs cfg ogNames acc).1 ↔ k ∈ acc.1 ∨ TouchedOgs cfg ogNames k) := by
  intro ogNames
  induction ogNames with
  | nil => intro acc k; simp [resolveOgs, TouchedOgs]
  | cons og rest ih =>
      intro acc k
      cases hog : alGet cfg.objectGroups og with
      | none =>
          simp only [resolveOgs, hog]
          rw [ih, TouchedOgs_cons_none cfg og rest k hog]
      | some objs =>
          simp only [resolveOgs, hog]
          rw [ih, resolveObjs_seen, TouchedOgs_cons_some cfg og rest k objs hog]
          tauto

theorem resolveOgs_jobs (cfg : LoadedConfig) :
    ∀ (ogNames : List String) (acc : List String × List String) (k : String),
      (k ∈ (resolveOgs cfg ogNames acc).2 ↔
        k ∈ acc.2 ∨ (¬ k ∈ acc.1 ∧ TouchedOgs cfg ogNames k ∧ k ∈ cfg.objectDefs)) := by
  intro ogNames
  induction ogNames with
  | nil => intro acc k; simp [resolveOgs, TouchedOgs]
  | cons og rest ih =>
      intro acc k
      cases hog : alGet cfg.objectGroups og with
      | none =>
          simp only [resolveOgs, hog]
          rw [ih, TouchedOgs_cons_none cfg og rest k hog]
      | some objs =>
          simp only [resolveOgs, hog]
          rw [ih, resolveObjs_jobs, resolveObjs_seen,
            TouchedOgs_cons_some cfg og rest k objs hog]
          tauto

theorem resolveOgs_inv (cfg : LoadedConfig) :
    ∀ (ogNames : List String) (acc : List String × List String),
      acc.2.Nodup → (∀ j ∈ acc.2, j ∈ acc.1) →
      ((resolveOgs cfg ogNames acc).2.Nodup ∧
        ∀ j ∈ (resolveOgs cfg ogNames acc).2, j ∈ (resolveOgs cfg ogNames acc).1) := by
  intro ogNames
  induction ogNames with
  | nil => intro acc h1 h2; exact ⟨h1, h2⟩
  | cons og rest ih =>
      intro acc h1 h2
      cases hog : alGet cfg.objectGroups og with
      | none =>
          simp only [resolveOgs, hog]
          exact ih acc h1 h2
      | some objs =>
          simp only [resolveOgs, hog]
          have h := resolveObjs_inv cfg.objectDefs objs acc h1 h2
          exact ih _ h.1 h.2

theorem Touched_cons_none (cfg : LoadedConfig) (g : String) (rest : List String)
    (k : String) (hg : alGet cfg.deviceGroups g = none) :
    Touched cfg (g :: rest) k ↔ Touched cfg rest k := by
  unfold Touched
  constructor
  · rintro ⟨g', hg', ogNames, hogs, hrest⟩
    rcases List.mem_cons.mp hg' with h | h
    · subst h; rw [hg] at hogs; cases hogs
    · exact ⟨g', h, ogNames, hogs, hrest⟩
  · rintro ⟨g', hg', ogNames, hogs, hrest⟩
    exact ⟨g', List.mem_cons_of_mem _ hg', ogNames, hogs, hrest⟩

theorem Touched_cons_some (cfg : LoadedConfig) (g : String) (rest : List String)
    (k : String) (ogNames : List String) (hg : alGet cfg.deviceGroups g = some ogNames) :
    Touched cfg (g :: rest) k ↔ TouchedOgs cfg ogNames k ∨ Touched cfg rest k := by
  unfold Touched TouchedOgs
  constructor
  · rintro ⟨g', hg', ogNames', hogs', hrest⟩
    rcases List.mem_cons.mp hg' with h | h
    · subst h
      rw [hg] at hogs'
      obtain rfl : ogNames = ogNames' := by injection hogs'
      exact Or.inl hrest
    · exact Or.inr ⟨g', h, ogNames', hogs', hrest⟩
  · rintro (hk | ⟨g', hg', ogNames', hogs', hrest⟩)
    · exact ⟨g, by simp, ogNames, hg, hk⟩
    · exact ⟨g', List.mem_cons_of_mem _ hg', ogNames', hogs', hrest⟩

theorem resolveDgs_jobs (cfg : LoadedConfig) :
    ∀ (dgNames : List String) (acc : List String × List String) (k : String),
      (k ∈ (resolveDgs cfg dgNames acc).2 ↔
        k ∈ acc.2 ∨ (¬ k ∈ acc.1 ∧ Touched cfg dgNames k ∧ k ∈ cfg.objectDefs)) := by
  intro dgNames
  induction dgNames with
  | nil => intro acc k; simp [resolveDgs, Touched]
  | cons g rest ih =>
      intro acc k
      cases hg : alGet cfg.deviceGroups g with
      | none =>
          simp only [resolveDgs, hg]
          rw [ih, Touched_cons_none cfg g rest k hg]
      | some ogNames =>
          simp only [resolveDgs, hg]
          rw [ih, resolveOgs_jobs, resolveOgs_seen, Touched_cons_some cfg g rest k ogNames hg]
          tauto

theorem resolveDgs_inv (cfg : LoadedConfig) :
    ∀ (dgNames : List String) (acc : List String × List String),
      acc.2.Nodup → (∀ j ∈ acc.2, j ∈ acc.1) →
      ((resolveDgs cfg dgNames acc).2.Nodup ∧
        ∀ j ∈ (resolveDgs cfg dgNames acc).2, j ∈ (resolveDgs cfg dgNames acc).1) := by
  intro dgNames
  induction dgNames with
  | nil => intro acc h1 h2; exact ⟨h1, h2⟩
  | cons g rest ih =>
      intro acc h1 h2
      cases hg : alGet cfg.deviceGroups g with
      | none =>
          simp only [resolveDgs, hg]
          exact ih acc h1 h2
      | some ogNames =>
          simp only [resolveDgs, hg]
          have h := resolveOgs_inv cfg ogNames acc h1 h2
          exact ih _ h.1 h.2

theorem mem_resolveDeviceObjects (cfg : LoadedConfig) (dgNames : List String) (k : String) :
    k ∈ resolveDeviceObjects cfg dgNames ↔ Touched cfg dgNames k ∧ k ∈ cfg.objectDefs := by
  unfold resolveDeviceObjects
  rw [resolveDgs_jobs]
  simp

theorem nodup_resolveDeviceObjects (cfg : LoadedConfig) (dgNames : List String) :
    (resolveDeviceObjects cfg dgNames).Nodup :=
  (resolveDgs_inv cfg dgNames ([], []) (by simp) (by simp)).1

theorem optPerm_refl (o : Option (List String)) : optPerm o o := by
  cases o with
  | none => trivial
  | some l => exact List.Perm.refl l

theorem optPerm_symm {o o' : Option (List String)} (h : optPerm o o') : optPerm o' o := by
  cases o with
  | none => cases o' with
    | none => trivial
    | some l => exact absurd h (by simp [optPerm])
  | some l => cases o' with
    | none => exact absurd h (by simp [optPerm])
    | some l' => exact List.Perm.symm h

theorem Touched_mono (cfg cfg' : LoadedConfig) (dgNames dgNames' : List String) (k : String)
    (hperm : dgNames.Perm dgNames')
    (hg : ∀ g, optPerm (alGet cfg.deviceGroups g) (alGet cfg'.deviceGroups g))
    (hog : ∀ og, optPerm (alGet cfg.objectGroups og) (alGet cfg'.objectGroups og))
    (ht : Touched cfg dgNames k) : Touched cfg' dgNames' k := by
  obtain ⟨g, hgmem, ogNames, hlook, og, hogmem, objs, holook, hk⟩ := ht
  refine ⟨g, hperm.mem_iff.mp hgmem, ?_⟩
  have h1 := hg g
  rw [hlook] at h1
  cases h2 : alGet cfg'.deviceGroups g with
  | none => rw [h2] at h1; exact absurd h1 (by simp [optPerm])
  | some ogNames' =>
      rw [h2] at h1
      have h1' : ogNames.Perm ogNames' := h1
      have h3 := hog og
      rw [holook] at h3
      cases h4 : alGet cfg'.objectGroups og with
      | none => rw [h4] at h3; exact absurd h3 (by simp [optPerm])
      | some objs' =>
          rw [h4] at h3
          have h3' : objs.Perm objs' := h3
          exact ⟨ogNames', rfl, og, h1'.mem_iff.mp hogmem, objs', h4, h3'.mem_iff.mp hk⟩

/-- C9: per-device scheduler resolution is deduplicating and
order-independent: the resolved object-key list has no duplicates, contains
exactly the configured objects reachable through some device-group →
object-group path (each exactly once, however many paths reach it), and
permuting the device-group list or any group's member list yields a
permutation (the same set) of resolved keys. -/
theorem scheduler_resolution_order_independent :
    ∀ (cfg cfg' : LoadedConfig) (dgNames dgNames' : List String),
      dgNames.Perm dgNames' →
      (∀ g, optPerm (alGet cfg.deviceGroups g) (alGet cfg'.deviceGroups g)) →
      (∀ og, optPerm (alGet cfg.objectGroups og) (alGet cfg'.objectGroups og)) →
      cfg.objectDefs = cfg'.objectDefs →
      (resolveDeviceObjects cfg dgNames).Nodup ∧
      (∀ k, k ∈ resolveDeviceObjects cfg dgNames ↔
          Touched cfg dgNames k ∧ k ∈ cfg.objectDefs) ∧
      (∀ k, Touched cfg dgNames k → k ∈ cfg.objectDefs →
          (resolveDeviceObjects cfg dgNames).count k = 1) ∧
      (resolveDeviceObjects cfg dgNames).Perm (resolveDeviceObjects cfg' dgNames') := by
  intro cfg cfg' dgNames dgNames' hperm hg hog hdefs
  refine ⟨nodup_resolveDeviceObjects cfg dgNames, mem_resolveDeviceObjects cfg dgNames, ?_, ?_⟩
  · intro k ht hd
    exact List.count_eq_one_of_mem (nodup_resolveDeviceObjects cfg dgNames)
      ((mem_resolveDeviceObjects cfg dgNames k).mpr ⟨ht, hd⟩)
  · rw [List.perm_ext_iff_of_nodup (nodup_resolveDeviceObjects cfg dgNames)
      (nodup_resolveDeviceObjects cfg' dgNames')]
    intro k
    rw [mem_resolveDeviceObjects, mem_resolveDeviceObjects, hdefs]
    constructor
    · rintro ⟨ht, hd⟩
      exact ⟨Touched_mono cfg cfg' dgNames dgNames' k hperm hg hog ht, hd⟩
    · rintro ⟨ht, hd⟩
      exact ⟨Touched_mono cfg' cfg dgNames' dgNames k hperm.symm
        (fun g => optPerm_symm (hg g)) (fun og => optPerm_symm (hog og)) ht, hd⟩

/-- C9 witness: on the two-path configuration, object "A" (reachable via both
og1 and og2) is resolved exactly once, and reversing the device-group order
yields a permutation of the same job list. -/
theorem scheduler_resolution_order_independent_witness :
    resolveDeviceObjects c9Cfg ["g1", "g2"] = ["A", "B", "C"] ∧
    (resolveDeviceObjects c9Cfg ["g1", "g2"]).Nodup ∧
    (resolveDeviceObjects c9Cfg ["g1", "g2"]).count "A" = 1 ∧
    (resolveDeviceObjects c9Cfg ["g1", "g2"]).Perm
      (resolveDeviceObjects c9Cfg ["g2", "g1"]) := by
  have h := scheduler_resolution_order_independent c9Cfg c9Cfg ["g1", "g2"] ["g2", "g1"]
    (List.Perm.swap "g2" "g1" []) (fun g => optPerm_refl _) (fun og => optPerm_refl _) rfl
  refine ⟨by decide, h.1, ?_, h.2.2.2⟩
  exact h.2.2.1 "A"
    ⟨"g1", by decide, ["og1"], rfl, "og1", by decide, ["A", "B"], rfl, by decide⟩
    (by decide)

/-!  Enum resolution order (claim C10)  -/

/-- C10: a label registered via RegisterOIDEnum under the attribute's base
OID itself is returned by Resolve for every raw value — integer values
included — before any integer or bitmap enumeration registered for the same
OID is considered. -/
theorem enum_oid_table_first (r : EnumRegistry) (oid label : String) (rawValue : GoValue) :
    (r.RegisterOIDEnum oid label).Resolve oid rawValue = GoValue.str label := by
  unfold EnumRegistry.Resolve EnumRegistry.RegisterOIDEnum
  simp only [alGet_alSet_self]

end SnmpSpec
